import Mathlib

/-!
Verification of the HTML-to-text renderer of `simple-rss`
(`src/html_render.rs`), against the repository's natural-language
specification.

The renderer present in `src/html_render.rs` is embedded shallowly below:
the DOM tree (`scraper::Node` plus `ego_tree` children) becomes an
inductive `Node`; the `&mut String` accumulator is passed and returned
explicitly; the recursion is driven by a fuel parameter (structural on
`Nat`), and the result type `Except RenderErr _` distinguishes the one
panicking path of the source (`.unwrap()` on a childless inline `code`
element, line 195, embedded as `.error .panic`) from fuel exhaustion
(`.error .fuelOut`, an artifact of the embedding that never occurs when
the fuel exceeds the recursion depth of the input — every theorem below
is stated for arbitrary or sufficient fuel).

The word-wrapping renderer with `max_width` that the spec's sections 4.2
and 4.4 describe is not part of `src/` (only its caller
`components/content.rs`, which invokes `render(text, max_width, styled)`,
is); that part is modelled from the spec near the end of the definitions,
and is clearly marked as such.

Rust `String` is modelled by Lean `String`; display-column width is
modelled by character count (all inputs considered here are ASCII, where
the two coincide).  Rust `str::trim` (Unicode whitespace) is modelled by
trimming the four ASCII whitespace characters, which coincides with it on
ASCII text.
-/

/-- Characters treated as whitespace by the model of Rust `str::trim`
(the ASCII fragment of `char::is_whitespace`). -/
def isWs (c : Char) : Bool :=
  c = ' ' ∨ c = '\t' ∨ c = '\n' ∨ c = '\r'

/-- Model of Rust `str::trim`: remove leading and trailing whitespace. -/
def strTrim (s : String) : String :=
  ⟨((s.data.dropWhile isWs).reverse.dropWhile isWs).reverse⟩

/-- Model of `txt.replace("\n", " ")` (`src/html_render.rs` line 101).
Since the pattern is a single character, this is a character-wise map. -/
def replaceNl (s : String) : String :=
  ⟨s.data.map (fun c => if c = '\n' then ' ' else c)⟩

/-- Model of `txt.chars().next().unwrap()` (line 103).  The renderer only
calls it after establishing that `txt` is nonempty, so the default `'A'`
for the empty string is never produced by those call sites. -/
def firstChar (s : String) : Char :=
  match s.data with
  | [] => 'A'
  | c :: _ => c

/-- Split a character list at newline characters (used to talk about the
lines of an output string). -/
def splitOnNl : List Char → List (List Char)
  | [] => [[]]
  | c :: cs =>
      match splitOnNl cs with
      | [] => [[c]]
      | h :: t => if c = '\n' then [] :: h :: t else (c :: h) :: t

/-- The lines of an output string. -/
def strLines (s : String) : List String :=
  (splitOnNl s.data).map (fun l => ⟨l⟩)

/-- `ContextType` from `src/html_render.rs` lines 4-11. -/
inductive ContextType where
  | Inline
  | RequiresSpace
  | NewParagraph
  | UnorderedList
  | OrderedList (n : Nat)
deriving DecidableEq, Repr

/-- `Context` from `src/html_render.rs` lines 13-18 (`u16` fields become
`Nat`; the code never subtracts and realistic documents never overflow). -/
structure Context where
  context_type : ContextType
  indent : Nat
  keep_prefix_space : Bool
deriving DecidableEq, Repr

/-- `RenderStatus` from `src/html_render.rs` lines 20-25. -/
inductive RenderStatus where
  | NotRendered
  | Rendered
  | RenderedRequiresSpace
deriving DecidableEq, Repr

/-- `ContextType::precedence` (lines 27-37). -/
def ContextType.precedence : ContextType → Nat
  | .Inline => 0
  | .RequiresSpace => 1
  | .NewParagraph => 2
  | .UnorderedList => 3
  | .OrderedList _ => 3

/-- `Context::merge` (lines 39-60). -/
def Context.merge (self : Context) (context_type : ContextType) : Context :=
  if self.context_type.precedence > context_type.precedence then
    { context_type := self.context_type
      keep_prefix_space := self.keep_prefix_space
      indent := self.indent }
  else
    let indent :=
      match context_type with
      | .UnorderedList | .OrderedList _ => self.indent + 2
      | _ => self.indent
    { context_type := context_type
      keep_prefix_space := self.keep_prefix_space
      indent := indent }

/-- `RenderStatus::is_rendered` (lines 62-66). -/
def RenderStatus.is_rendered (s : RenderStatus) : Bool :=
  s ≠ RenderStatus.NotRendered

/-- The DOM tree consumed by the renderer: a `scraper::Node` together with
its ordered subtree (`ego_tree` children).  `Document` is the root node
with its children. -/
inductive Node where
  | Document (children : List Node)
  | Fragment (children : List Node)
  | Text (text : String)
  | Element (name : String) (attrs : List (String × String)) (children : List Node)
  | Comment (text : String)
  | Doctype (text : String)
  | ProcessingInstruction (text : String)

/-- Outcome of a failing embedded call: the source's panic (`.unwrap()` on
`None`), or exhaustion of the embedding's fuel (which never happens with
fuel above the input's recursion depth). -/
inductive RenderErr where
  | panic
  | fuelOut
deriving DecidableEq, Repr

deriving instance DecidableEq for Except

/-- Model of `element.attr(key)`: first attribute with the given name. -/
def attrGet (attrs : List (String × String)) (key : String) : Option String :=
  (attrs.find? (fun p => p.1 = key)).map (fun p => p.2)

/-- `new_line` (lines 292-297): push a newline, then `ctx.indent` spaces. -/
def new_line (ctx : Context) (res : String) : String :=
  res ++ "\n" ++ ⟨List.replicate ctx.indent ' '⟩

/-- `render_context` (lines 299-320): realize the context's separator in
front of content whose first character is `first_char`. -/
def render_context (ctx : Context) (first_char : Char) (res : String) : String :=
  match ctx.context_type with
  | .Inline => res
  | .RequiresSpace =>
      if first_char ≠ '.' ∧ first_char ≠ ',' ∧ first_char ≠ ';' then
        res ++ " "
      else
        res
  | .NewParagraph => new_line ctx (new_line ctx res)
  | .UnorderedList => new_line ctx res ++ "- "
  | .OrderedList idx => new_line ctx res ++ Nat.repr idx ++ ". "

mutual

/-- `render_node` (lines 86-277): dispatch on the node kind and, for
elements, on the tag name, in the source's arm order; the per-tag bodies
are the named functions below.  `parent_is_pre` embeds the only use the
source makes of `node.parent()`: the check, in the `code` arm, whether the
parent element is `pre` (lines 185-188); every recursion site passes
whether the current node is a `pre` element. -/
def render_node : Nat → Node → Bool → Context → String →
    Except RenderErr (String × RenderStatus)
  | 0, _, _, _, _ => .error .fuelOut
  | fuel + 1, node, parent_is_pre, ctx, res =>
    match node with
    | .Document children => render_children fuel children false ctx .NotRendered res
    | .Fragment children => render_children fuel children false ctx .NotRendered res
    | .Text text =>
        let txt := if ctx.keep_prefix_space then text else strTrim text
        if txt = "" then
          .ok (res, .NotRendered)
        else
          let txt := replaceNl txt
          let res := render_context ctx (firstChar txt) res
          .ok (res ++ txt, .Rendered)
    | .Element name attrs children =>
        if name = "a" then render_a fuel attrs children ctx res
        else if name = "span" then render_span fuel children ctx res
        else if name = "strong" then render_strong fuel children ctx res
        else if name = "script" then .ok (res, .NotRendered)
        else if name = "ul" then render_ul_children fuel children ctx .NotRendered res
        else if name = "ol" then render_ol_children fuel children ctx 1 .NotRendered res
        else if name = "code" then render_code fuel parent_is_pre children ctx res
        else render_block_children fuel children (name = "pre") ctx .NotRendered res
    | .Comment _ => .ok (res, .NotRendered)
    | .Doctype _ => .ok (res, .NotRendered)
    | .ProcessingInstruction _ => .ok (res, .NotRendered)

/-- The `a` arm (lines 109-127): bracketed children, then `](`, the
`href` attribute value (empty string if absent), and `)`. -/
def render_a : Nat → List (String × String) → List Node → Context → String →
    Except RenderErr (String × RenderStatus)
  | 0, _, _, _, _ => .error .fuelOut
  | fuel + 1, attrs, children, ctx, res =>
    let res := render_context (ctx.merge .RequiresSpace) '[' res
    let res := res ++ "["
    match render_children fuel children false
        { context_type := .Inline, indent := ctx.indent,
          keep_prefix_space := ctx.keep_prefix_space } .NotRendered res with
    | .error e => .error e
    | .ok (res, _) =>
        .ok (res ++ "](" ++ (attrGet attrs "href").getD "" ++ ")",
          .RenderedRequiresSpace)

/-- The `span` arm (lines 128-141). -/
def render_span : Nat → List Node → Context → String →
    Except RenderErr (String × RenderStatus)
  | 0, _, _, _ => .error .fuelOut
  | fuel + 1, children, ctx, res =>
    let res := render_context ctx ' ' res
    match render_children fuel children false
        { context_type := .Inline, indent := ctx.indent,
          keep_prefix_space := ctx.keep_prefix_space } .NotRendered res with
    | .error e => .error e
    | .ok (res, _) => .ok (res, .RenderedRequiresSpace)

/-- The `strong` arm (lines 142-158). -/
def render_strong : Nat → List Node → Context → String →
    Except RenderErr (String × RenderStatus)
  | 0, _, _, _ => .error .fuelOut
  | fuel + 1, children, ctx, res =>
    let res := render_context ctx ' ' res
    let res := res ++ "**"
    match render_children fuel children false
        { context_type := .Inline, indent := ctx.indent,
          keep_prefix_space := ctx.keep_prefix_space } .NotRendered res with
    | .error e => .error e
    | .ok (res, _) => .ok (res ++ "**", .RenderedRequiresSpace)

/-- The `code` arm (lines 184-241): inline code renders only the first
child, panicking (`.unwrap()` on line 195) when there is none; block code
(parent is `pre`) renders a fenced block with every child in raw mode. -/
def render_code : Nat → Bool → List Node → Context → String →
    Except RenderErr (String × RenderStatus)
  | 0, _, _, _, _ => .error .fuelOut
  | fuel + 1, parent_is_pre, children, ctx, res =>
    if !parent_is_pre then
      let res := render_context (ctx.merge .RequiresSpace) '`' res
      let res := res ++ "`"
      match children with
      | [] => .error .panic
      | ch :: _ =>
          match render_node fuel ch false
              { context_type := .Inline, indent := ctx.indent,
                keep_prefix_space := ctx.keep_prefix_space } res with
          | .error e => .error e
          | .ok (res, _) => .ok (res ++ "`", .RenderedRequiresSpace)
    else
      let res := render_context ctx ' ' res
      let res :=
        if ctx.context_type = .Inline ∨ ctx.context_type = .RequiresSpace then
          new_line ctx res
        else res
      let res := res ++ "```"
      match render_code_children fuel children ctx res with
      | .error e => .error e
      | .ok res =>
          let res := new_line ctx res
          let res := res ++ "```"
          let res :=
            if ctx.context_type = .Inline ∨ ctx.context_type = .RequiresSpace then
              new_line ctx res
            else res
          .ok (res, .Rendered)

/-- `render_children` (lines 279-290): fold over children in the given
context, latching the last rendered status.  The `status` parameter embeds
the local `let mut status = NotRendered` (call sites pass `.NotRendered`). -/
def render_children : Nat → List Node → Bool → Context → RenderStatus → String →
    Except RenderErr (String × RenderStatus)
  | 0, _, _, _, _, _ => .error .fuelOut
  | fuel + 1, children, parent_is_pre, ctx, status, res =>
    match children with
    | [] => .ok (res, status)
    | ch :: rest =>
        match render_node fuel ch parent_is_pre ctx res with
        | .error e => .error e
        | .ok (res, st) =>
            render_children fuel rest parent_is_pre ctx
              (if st.is_rendered then st else status) res

/-- The `ul` arm's loop (lines 160-170). -/
def render_ul_children : Nat → List Node → Context → RenderStatus → String →
    Except RenderErr (String × RenderStatus)
  | 0, _, _, _, _ => .error .fuelOut
  | fuel + 1, children, ctx, status, res =>
    match children with
    | [] => .ok (res, status)
    | ch :: rest =>
        match render_node fuel ch false (ctx.merge .UnorderedList) res with
        | .error e => .error e
        | .ok (res, st) =>
            render_ul_children fuel rest ctx
              (if st.is_rendered then .Rendered else status) res

/-- The `ol` arm's loop (lines 171-183): the ordinal `count` increments
only for children whose status `is_rendered`. -/
def render_ol_children : Nat → List Node → Context → Nat → RenderStatus → String →
    Except RenderErr (String × RenderStatus)
  | 0, _, _, _, _, _ => .error .fuelOut
  | fuel + 1, children, ctx, count, status, res =>
    match children with
    | [] => .ok (res, status)
    | ch :: rest =>
        match render_node fuel ch false (ctx.merge (.OrderedList count)) res with
        | .error e => .error e
        | .ok (res, st) =>
            if st.is_rendered then
              render_ol_children fuel rest ctx (count + 1) .Rendered res
            else
              render_ol_children fuel rest ctx count status res

/-- The default (generic block container) arm's loop (lines 243-271): the
context passed to each child is chosen by the running status, and a child's
status is latched only when it `is_rendered`. -/
def render_block_children : Nat → List Node → Bool → Context → RenderStatus → String →
    Except RenderErr (String × RenderStatus)
  | 0, _, _, _, _, _ => .error .fuelOut
  | fuel + 1, children, parent_is_pre, ctx, status, res =>
    match children with
    | [] =>
        .ok (res, if status.is_rendered then .Rendered else .NotRendered)
    | ch :: rest =>
        let context :=
          match status with
          | .NotRendered => ctx.merge .NewParagraph
          | .Rendered =>
              { context_type := .Inline, indent := ctx.indent,
                keep_prefix_space := ctx.keep_prefix_space }
          | .RenderedRequiresSpace =>
              { context_type := .RequiresSpace, indent := ctx.indent,
                keep_prefix_space := ctx.keep_prefix_space }
        match render_node fuel ch parent_is_pre context res with
        | .error e => .error e
        | .ok (res, st) =>
            render_block_children fuel rest parent_is_pre ctx
              (if st.is_rendered then st else status) res

/-- The block-`code` arm's loop over children (lines 216-228): each child
is preceded by a forced newline and rendered with `keep_prefix_space`. -/
def render_code_children : Nat → List Node → Context → String →
    Except RenderErr String
  | 0, _, _, _ => .error .fuelOut
  | fuel + 1, children, ctx, res =>
    match children with
    | [] => .ok res
    | ch :: rest =>
        let res := new_line ctx res
        match render_node fuel ch false
            { context_type := .Inline, indent := ctx.indent,
              keep_prefix_space := true } res with
        | .error e => .error e
        | .ok (res, _) => render_code_children fuel rest ctx res

end

/-- The context `render` (lines 68-84) starts the walk with. -/
def initial_context : Context :=
  { context_type := .Inline, indent := 0, keep_prefix_space := false }

mutual

/-- Raw contents of all text nodes of a tree, in depth-first order. -/
def dfsTexts : Node → List String
  | .Document c => dfsTextsList c
  | .Fragment c => dfsTextsList c
  | .Text t => [t]
  | .Element _ _ c => dfsTextsList c
  | .Comment _ => []
  | .Doctype _ => []
  | .ProcessingInstruction _ => []

/-- Raw contents of all text nodes of a forest, in depth-first order. -/
def dfsTextsList : List Node → List String
  | [] => []
  | n :: rest => dfsTexts n ++ dfsTextsList rest

end

/-- The transformation the renderer applies to a text node outside raw
blocks: trim, then replace newlines by spaces (lines 90-104). -/
def normalTf (t : String) : String := replaceNl (strTrim t)

/-- The transformation applied when `keep_prefix_space` is set (text
inside a block-`code` element): replace newlines by spaces, no trim. -/
def rawTf (t : String) : String := replaceNl t

mutual

/-- The text tokens `render_node` actually emits for a tree, in
depth-first order: a pure function of the input computed by mirroring
`render_node`'s dispatch (lines 86-277) — same arm order, same fuel flow.
`pp` is whether the parent element is `pre`, `keep` the context's
`keep_prefix_space` flag (the only context field the emitted text depends
on; every child context of the source preserves it except block-`code`
children, which set it).  A `script` subtree emits nothing (line 159), a
text node emits its transformed content unless that is dropped as empty
(lines 90-104), and an inline `code` element emits only its first child's
tokens (line 195). -/
def emTexts : Nat → Bool → Bool → Node → List String
  | 0, _, _, _ => []
  | fuel + 1, pp, keep, node =>
    match node with
    | .Document children => emTextsList fuel false keep children
    | .Fragment children => emTextsList fuel false keep children
    | .Text text =>
        let txt := if keep then text else strTrim text
        if txt = "" then [] else [replaceNl txt]
    | .Element name _ children =>
        if name = "a" then emTextsInline fuel keep children
        else if name = "span" then emTextsInline fuel keep children
        else if name = "strong" then emTextsInline fuel keep children
        else if name = "script" then []
        else if name = "ul" then emTextsList fuel false keep children
        else if name = "ol" then emTextsList fuel false keep children
        else if name = "code" then emTextsCode fuel pp keep children
        else emTextsList fuel (name = "pre") keep children
    | .Comment _ => []
    | .Doctype _ => []
    | .ProcessingInstruction _ => []

/-- Tokens of a forest whose members are rendered in a context derived
from the current one (the loops `render_children`, `render_ul_children`,
`render_ol_children` and `render_block_children` all preserve
`keep_prefix_space` and peel one unit of fuel per child). -/
def emTextsList : Nat → Bool → Bool → List Node → List String
  | 0, _, _, _ => []
  | fuel + 1, pp, keep, ns =>
    match ns with
    | [] => []
    | n :: rest => emTexts fuel pp keep n ++ emTextsList fuel pp keep rest

/-- Tokens of the children of an `a`, `span` or `strong` element: the arm
functions `render_a`, `render_span` and `render_strong` consume one fuel
unit before their `render_children` call. -/
def emTextsInline : Nat → Bool → List Node → List String
  | 0, _, _ => []
  | fuel + 1, keep, children => emTextsList fuel false keep children

/-- Tokens of a `code` element's children, mirroring `render_code`
(lines 184-241): inline code emits only the first child's tokens (and
nothing when there is none — that call panics); block code emits every
child's tokens in raw mode (`keep_prefix_space` set). -/
def emTextsCode : Nat → Bool → Bool → List Node → List String
  | 0, _, _, _ => []
  | fuel + 1, parent_is_pre, keep, children =>
    if !parent_is_pre then
      match children with
      | [] => []
      | ch :: _ => emTexts fuel false keep ch
    else emTextsList fuel false true children

end

/-- `Emits ts s`: the tokens `ts` all occur in `s`, disjointly and in
order — `s` is `p₀ ++ t₁ ++ p₁ ++ t₂ ++ … ++ tₖ ++ pₖ` for some
interleaved markup pieces `pᵢ`.  There is no constructor that skips a
token: every listed token must appear, in the listed order. -/
inductive Emits : List String → String → Prop where
  | nil : ∀ s, Emits [] s
  | cons : ∀ t ts p r, Emits ts r → Emits (t :: ts) (p ++ (t ++ r))

/-- `SelTf ts us`: `us` is obtained from `ts` by deleting some tokens and
transforming each kept one by `normalTf` or `rawTf`, preserving the
relative order (an order-preserving transformed selection). -/
inductive SelTf : List String → List String → Prop where
  | nil : SelTf [] []
  | drop : ∀ t ts us, SelTf ts us → SelTf (t :: ts) us
  | keepN : ∀ t ts us, SelTf ts us → SelTf (t :: ts) (normalTf t :: us)
  | keepR : ∀ t ts us, SelTf ts us → SelTf (t :: ts) (rawTf t :: us)

/-- Claim-side reformulation of the generic block-container loop, written
from the claim's words: the context passed to each child is chosen by the
most recent rendered status among previous children (`none` while no child
has rendered yet), and the element returns `Rendered` if some child
rendered and `NotRendered` otherwise.  The fuel plumbing mirrors the
embedding of the code-side loop. -/
def genericRenderClaim : Nat → List Node → Bool → Context → Option RenderStatus →
    String → Except RenderErr (String × RenderStatus)
  | 0, _, _, _, _, _ => .error .fuelOut
  | fuel + 1, children, parent_is_pre, ctx, last, res =>
    match children with
    | [] =>
        .ok (res, match last with
          | some _ => .Rendered
          | none => .NotRendered)
    | ch :: rest =>
        let context :=
          match last with
          | none => ctx.merge .NewParagraph
          | some .Rendered =>
              { context_type := .Inline, indent := ctx.indent,
                keep_prefix_space := ctx.keep_prefix_space }
          | some .RenderedRequiresSpace =>
              { context_type := .RequiresSpace, indent := ctx.indent,
                keep_prefix_space := ctx.keep_prefix_space }
          | some .NotRendered => ctx.merge .NewParagraph
        match render_node fuel ch parent_is_pre context res with
        | .error e => .error e
        | .ok (res, st) =>
            genericRenderClaim fuel rest parent_is_pre ctx
              (if st.is_rendered then some st else last) res

/-- The `ol` loop instrumented to record, for each child whose render
status `is_rendered`, the ordinal it was invoked with.  Identical to
`render_ol_children` except for the recording. -/
def ol_trace : Nat → List Node → Context → Nat → RenderStatus → String →
    Except RenderErr (String × RenderStatus × List Nat)
  | 0, _, _, _, _, _ => .error .fuelOut
  | fuel + 1, children, ctx, count, status, res =>
    match children with
    | [] => .ok (res, status, [])
    | ch :: rest =>
        match render_node fuel ch false (ctx.merge (.OrderedList count)) res with
        | .error e => .error e
        | .ok (res, st) =>
            if st.is_rendered then
              (ol_trace fuel rest ctx (count + 1) .Rendered res).map
                (fun r => (r.1, r.2.1, count :: r.2.2))
            else
              ol_trace fuel rest ctx count status res

/-! ### Word-wrap emitter, modelled from the spec

The renderer version in `src/html_render.rs` predates word wrapping: it
has no `max_width` parameter at all.  Its caller
(`src/components/content.rs`, line 208) invokes the evolved renderer as
`render(&self.raw_text, area.width as usize - 2, true)`, but that evolved
renderer file is not part of `src/`.  The definitions below are therefore
modelled from the spec, sections 4.2 (Normal mode) and 4.4, and carry a
`Modelled from the spec:` marker. -/

/-- Display-column width of a list of words joined by single spaces.
Width is modelled as character count (ASCII assumption). -/
def joinedWidth : List String → Nat
  | [] => 0
  | [w] => w.length
  | w :: ws => w.length + 1 + joinedWidth ws

/-- A rendered output line created by the word-wrap emitter: its leading
indentation (in columns) and the words placed on it. -/
structure WrapLine where
  indent : Nat
  words : List String
deriving DecidableEq, Repr

/-- Width in columns of a created line: indentation plus space-joined words. -/
def WrapLine.width (l : WrapLine) : Nat := l.indent + joinedWidth l.words

/-- Modelled from the spec: word placement on lines the emitter itself
created (spec 4.2: "before placing a word, if
`last_line_width + word_width + 1 > max_width`, start a new line first;
words are never split"; spec 4.4: a fresh line starts at `indentCols`
columns and its first word gets no joining space).  `cur` is the current
created line's words (most recent last), `curWidth` its running width;
returns all created lines in order. -/
def segmentCreated (maxW indentCols : Nat) (cur : List String) (curWidth : Nat) :
    List String → List (List String)
  | [] => [cur]
  | w :: ws =>
      if maxW < curWidth + w.length + 1 then
        cur :: segmentCreated maxW indentCols [w] (indentCols + w.length) ws
      else
        segmentCreated maxW indentCols (cur ++ [w]) (curWidth + 1 + w.length) ws

/-- Modelled from the spec: word placement starting on the line that was
current when the text emitter was entered (width `w0` columns already
consumed by earlier content and separators).  `gap` records whether a
joining space is due before the next word placed on this line (`false` on
entry: the separator, not the emitter, decides the space before the first
word).  Returns the words appended to the entry line and the created
lines. -/
def segmentInit (maxW indentCols : Nat) (w0 : Nat) (gap : Bool) :
    List String → List String × List (List String)
  | [] => ([], [])
  | w :: ws =>
      if maxW < w0 + w.length + 1 then
        ([], segmentCreated maxW indentCols [w] (indentCols + w.length) ws)
      else
        let p := segmentInit maxW indentCols
          (w0 + (if gap then 1 else 0) + w.length) true ws
        (w :: p.1, p.2)

/-- Encoding relating the code-side running status of the generic loop to
the claim-side "most recent rendered status" (`none` while nothing has
rendered). -/
def statusEnc : RenderStatus → Option RenderStatus
  | .NotRendered => none
  | s => some s

/-- Final width of the entry line after the emitter appended `ws` to it,
starting from width `w0` with joining-space flag `gap`. -/
def placedWidth (w0 : Nat) (gap : Bool) : List String → Nat
  | [] => w0
  | w :: rest => placedWidth (w0 + (if gap then 1 else 0) + w.length) true rest

/-! ### Concrete input trees used by examples, counterexamples and witnesses -/

/-- The tree of `<p>Hello <a href="http://x">there</a>.</p>` (spec 8,
scenario 1). -/
def exP : Node :=
  .Element "p" []
    [.Text "Hello ",
     .Element "a" [("href", "http://x")] [.Text "there"],
     .Text "."]

/-- A paragraph containing an inline `code` element with no children. -/
def exCodeEmpty : Node :=
  .Element "p" [] [.Element "code" [] []]

/-- An `a` element with no `href` attribute. -/
def exANoHref : Node :=
  .Element "a" [] [.Text "x"]

/-- The tree of `<pre><code>line1\n\tline2</code></pre>` (spec 8,
scenario 4). -/
def exPre : Node :=
  .Element "pre" []
    [.Element "code" [] [.Text "line1\n\tline2"]]

/-- A `head` element with a text child. -/
def exHead : Node :=
  .Element "head" [] [.Text "x"]

/-- The children of `<ol><li>a</li><li></li><li>b</li></ol>`: three
list items of which the middle renders nothing. -/
def exOlChildren : List Node :=
  [.Element "li" [] [.Text "a"],
   .Element "li" [] [],
   .Element "li" [] [.Text "b"]]

/-- The tree of `<ol><li>a</li><li></li><li>b</li></ol>`. -/
def exOl : Node :=
  .Element "ol" [] exOlChildren

/-! ## Theorems -/

/-- C10: `c.merge t` keeps `c` whole (type, indent, flag) exactly when
`c`'s context type has strictly higher precedence than `t`; otherwise it
adopts `t`, the indent grows by exactly 2 when the adopted incoming type
is a list type and is unchanged in every other case, and
`keep_prefix_space` is always unchanged. -/
theorem merge_precedence_spec (c : Context) (t : ContextType) :
    (c.context_type.precedence > t.precedence → c.merge t = c) ∧
    (¬ c.context_type.precedence > t.precedence →
      (c.merge t).context_type = t ∧
      ((t = .UnorderedList ∨ ∃ n, t = .OrderedList n) →
        (c.merge t).indent = c.indent + 2) ∧
      ((t ≠ .UnorderedList ∧ ∀ n, t ≠ .OrderedList n) →
        (c.merge t).indent = c.indent)) ∧
    (c.merge t).keep_prefix_space = c.keep_prefix_space := by
  refine ⟨fun h => ?_, fun h => ?_, ?_⟩
  · simp only [Context.merge, if_pos h]
  · refine ⟨?_, fun ht => ?_, fun ht => ?_⟩
    · simp only [Context.merge, if_neg h]
    · simp only [Context.merge, if_neg h]
      rcases ht with h1 | ⟨n, h1⟩ <;> subst h1 <;> rfl
    · simp only [Context.merge, if_neg h]
      cases t with
      | UnorderedList => exact absurd rfl ht.1
      | OrderedList n => exact absurd rfl (ht.2 n)
      | _ => rfl
  · by_cases h : c.context_type.precedence > t.precedence
    · simp only [Context.merge, if_pos h]
    · simp only [Context.merge, if_neg h]

/-- C10 witness: both branches of the theorem at concrete inputs: merging
`UnorderedList` into the initial context adopts it and adds 2 columns of
indent, while a `NewParagraph` context refuses a `RequiresSpace` merge. -/
theorem merge_precedence_spec_witness :
    (initial_context.merge .UnorderedList).indent = initial_context.indent + 2 ∧
    ({ context_type := .NewParagraph, indent := 0,
       keep_prefix_space := false } : Context).merge .RequiresSpace =
      { context_type := .NewParagraph, indent := 0, keep_prefix_space := false } :=
  ⟨((merge_precedence_spec initial_context .UnorderedList).2.1 (by decide)).2.1
      (Or.inl rfl),
    (merge_precedence_spec _ .RequiresSpace).1 (by decide)⟩

/-- C1: the code path at the failing input.  An `a` element with no
`href` attribute does default to the empty string between `](` and `)`,
but an inline `code` element with no children makes `render_node` panic
(the `.unwrap()` on line 195 of `src/html_render.rs`) — it does not
return `NotRendered` as the claim and spec state. -/
theorem inline_code_no_children_panics :
    render_node 20 exCodeEmpty false initial_context "" = .error .panic ∧
    render_node 20 exANoHref false initial_context "" =
      .ok (" [x]()", .RenderedRequiresSpace) := by
  constructor <;> decide

/-- Helper: a status is not `is_rendered` exactly when it is `NotRendered`. -/
theorem is_rendered_false_iff (st : RenderStatus) :
    st.is_rendered = false ↔ st = .NotRendered := by
  cases st <;> simp [RenderStatus.is_rendered]

/-- Helper: `new_line` appends. -/
theorem new_line_append (ctx : Context) (res : String) :
    new_line ctx res = res ++ ("\n" ++ (⟨List.replicate ctx.indent ' '⟩ : String)) := by
  simp only [new_line, String.append_assoc]

/-- Helper: `render_context` only appends to the accumulator. -/
theorem render_context_append (ctx : Context) (c : Char) (res : String) :
    ∃ t, render_context ctx c res = res ++ t := by
  cases hct : ctx.context_type with
  | Inline =>
      exact ⟨"", by simp only [render_context, hct, String.append_empty]⟩
  | RequiresSpace =>
      by_cases hc : c ≠ '.' ∧ c ≠ ',' ∧ c ≠ ';'
      · exact ⟨" ", by simp only [render_context, hct, if_pos hc]⟩
      · exact ⟨"", by simp only [render_context, hct, if_neg hc, String.append_empty]⟩
  | NewParagraph =>
      refine ⟨"\n" ++ ((⟨List.replicate ctx.indent ' '⟩ : String) ++
        ("\n" ++ (⟨List.replicate ctx.indent ' '⟩ : String))), ?_⟩
      simp only [render_context, hct, new_line, String.append_assoc]
  | UnorderedList =>
      refine ⟨"\n" ++ ((⟨List.replicate ctx.indent ' '⟩ : String) ++ "- "), ?_⟩
      simp only [render_context, hct, new_line, String.append_assoc]
  | OrderedList idx =>
      refine ⟨"\n" ++ ((⟨List.replicate ctx.indent ' '⟩ : String) ++
        (Nat.repr idx ++ ". ")), ?_⟩
      simp only [render_context, hct, new_line, String.append_assoc]

/-- Helper: `merge` never changes the `keep_prefix_space` flag (both
branches of lines 39-60 copy it). -/
theorem merge_keep (c : Context) (t : ContextType) :
    (c.merge t).keep_prefix_space = c.keep_prefix_space := by
  unfold Context.merge
  split <;> rfl

/-- Helper: `Emits` is stable under prepending extra markup on the left. -/
theorem emits_prepend {ts : List String} {s : String} (p : String)
    (h : Emits ts s) : Emits ts (p ++ s) := by
  cases h with
  | nil s => exact Emits.nil _
  | cons t ts q r h =>
      have := Emits.cons t ts (p ++ q) r h
      simpa only [String.append_assoc] using this

/-- Helper: `Emits` is stable under appending extra markup on the right. -/
theorem emits_append_right {ts : List String} {s : String} (q : String)
    (h : Emits ts s) : Emits ts (s ++ q) := by
  induction h generalizing q with
  | nil s => exact Emits.nil _
  | cons t ts p r h ih =>
      have := Emits.cons t ts p (r ++ q) (ih q)
      simpa only [String.append_assoc] using this

/-- Helper: tokens emitted into consecutive output pieces concatenate. -/
theorem emits_concat {as bs : List String} {s1 s2 : String}
    (h1 : Emits as s1) (h2 : Emits bs s2) : Emits (as ++ bs) (s1 ++ s2) := by
  induction h1 with
  | nil s => exact emits_prepend s h2
  | cons t ts p r h ih =>
      have := Emits.cons t (ts ++ bs) p (r ++ s2) ih
      simpa only [String.append_assoc] using this

/-- Helper: a single token emitted right after a markup piece. -/
theorem emits_single (t p : String) : Emits [t] (p ++ t) := by
  have := Emits.cons t [] p "" (Emits.nil "")
  simpa only [String.append_empty] using this

/-- Helper: everything may be deleted by an order-preserving selection. -/
theorem selTf_drop_all (ts : List String) : SelTf ts [] := by
  induction ts with
  | nil => exact SelTf.nil
  | cons t ts ih => exact SelTf.drop t ts [] ih

/-- Helper: order-preserving selections concatenate. -/
theorem selTf_concat {as bs us vs : List String}
    (h1 : SelTf as us) (h2 : SelTf bs vs) : SelTf (as ++ bs) (us ++ vs) := by
  induction h1 with
  | nil => simpa using h2
  | drop t ts us h ih => exact SelTf.drop _ _ _ ih
  | keepN t ts us h ih => exact SelTf.keepN _ _ _ ih
  | keepR t ts us h ih => exact SelTf.keepR _ _ _ ih

/-- Master lemma, proved by induction on fuel: every successful call of
any renderer function only appends to the accumulator, and a
`NotRendered` result appends nothing (for the status-folding loops: a
`NotRendered` overall status also means the incoming status was
`NotRendered`). -/
theorem render_master (fuel : Nat) :
    (∀ n pp ctx res out st, render_node fuel n pp ctx res = .ok (out, st) →
      ∃ d, out = res ++ d ∧
        (st = .NotRendered → d = "")) ∧
    (∀ ns pp ctx st0 res out st,
      render_children fuel ns pp ctx st0 res = .ok (out, st) →
      ∃ d, out = res ++ d ∧
        (st = .NotRendered → st0 = .NotRendered ∧ d = "")) ∧
    (∀ attrs ns ctx res out st, render_a fuel attrs ns ctx res = .ok (out, st) →
      ∃ d, out = res ++ d ∧
        (st = .NotRendered → d = "")) ∧
    (∀ ns ctx res out st, render_span fuel ns ctx res = .ok (out, st) →
      ∃ d, out = res ++ d ∧
        (st = .NotRendered → d = "")) ∧
    (∀ ns ctx res out st, render_strong fuel ns ctx res = .ok (out, st) →
      ∃ d, out = res ++ d ∧
        (st = .NotRendered → d = "")) ∧
    (∀ pp ns ctx res out st, render_code fuel pp ns ctx res = .ok (out, st) →
      ∃ d, out = res ++ d ∧
        (st = .NotRendered → d = "")) ∧
    (∀ ns ctx st0 res out st, render_ul_children fuel ns ctx st0 res = .ok (out, st) →
      ∃ d, out = res ++ d ∧
        (st = .NotRendered → st0 = .NotRendered ∧ d = "")) ∧
    (∀ ns ctx count st0 res out st,
      render_ol_children fuel ns ctx count st0 res = .ok (out, st) →
      ∃ d, out = res ++ d ∧
        (st = .NotRendered → st0 = .NotRendered ∧ d = "")) ∧
    (∀ ns pp ctx st0 res out st,
      render_block_children fuel ns pp ctx st0 res = .ok (out, st) →
      ∃ d, out = res ++ d ∧
        (st = .NotRendered → st0 = .NotRendered ∧ d = "")) ∧
    (∀ ns ctx res out, render_code_children fuel ns ctx res = .ok out →
      ∃ d, out = res ++ d) := by
  induction fuel with
  | zero =>
      refine ⟨?_, ?_, ?_, ?_, ?_, ?_, ?_, ?_, ?_, ?_⟩
      · intro n pp ctx res out st h
        simp only [render_node] at h
        exact Except.noConfusion h
      · intro ns pp ctx st0 res out st h
        simp only [render_children] at h
        exact Except.noConfusion h
      · intro attrs ns ctx res out st h
        simp only [render_a] at h
        exact Except.noConfusion h
      · intro ns ctx res out st h
        simp only [render_span] at h
        exact Except.noConfusion h
      · intro ns ctx res out st h
        simp only [render_strong] at h
        exact Except.noConfusion h
      · intro pp ns ctx res out st h
        simp only [render_code] at h
        exact Except.noConfusion h
      · intro ns ctx st0 res out st h
        simp only [render_ul_children] at h
        exact Except.noConfusion h
      · intro ns ctx count st0 res out st h
        simp only [render_ol_children] at h
        exact Except.noConfusion h
      · intro ns pp ctx st0 res out st h
        simp only [render_block_children] at h
        exact Except.noConfusion h
      · intro ns ctx res out h
        simp only [render_code_children] at h
        exact Except.noConfusion h
  | succ fuel ih =>
      obtain ⟨ihn, ihc, iha, ihsp, ihstr, ihcd, ihul, ihol, ihb, ihcc⟩ := ih
      refine ⟨?_, ?_, ?_, ?_, ?_, ?_, ?_, ?_, ?_, ?_⟩
      · -- render_node
        intro n pp ctx res out st h
        cases n with
        | Document children =>
            simp only [render_node] at h
            obtain ⟨d, hd, hn⟩ := ihc _ _ _ _ _ _ _ h
            exact ⟨d, hd, fun hst => (hn hst).2⟩
        | Fragment children =>
            simp only [render_node] at h
            obtain ⟨d, hd, hn⟩ := ihc _ _ _ _ _ _ _ h
            exact ⟨d, hd, fun hst => (hn hst).2⟩
        | Text t =>
            simp only [render_node] at h
            by_cases hk : ctx.keep_prefix_space = true
            · rw [if_pos hk] at h
              by_cases he : t = ""
              · rw [if_pos he] at h
                simp only [Except.ok.injEq, Prod.mk.injEq] at h
                obtain ⟨rfl, rfl⟩ := h
                exact ⟨"", (String.append_empty res).symm, fun _ => rfl⟩
              · rw [if_neg he] at h
                simp only [Except.ok.injEq, Prod.mk.injEq] at h
                obtain ⟨rfl, rfl⟩ := h
                obtain ⟨sep, hsep⟩ :=
                  render_context_append ctx (firstChar (replaceNl t)) res
                refine ⟨sep ++ (rawTf t ++ ""), ?_,
                  fun hst => absurd hst (by decide)⟩
                simp only [hsep, rawTf, String.append_assoc, String.append_empty]
            · rw [if_neg hk] at h
              by_cases he : strTrim t = ""
              · rw [if_pos he] at h
                simp only [Except.ok.injEq, Prod.mk.injEq] at h
                obtain ⟨rfl, rfl⟩ := h
                exact ⟨"", (String.append_empty res).symm, fun _ => rfl⟩
              · rw [if_neg he] at h
                simp only [Except.ok.injEq, Prod.mk.injEq] at h
                obtain ⟨rfl, rfl⟩ := h
                obtain ⟨sep, hsep⟩ :=
                  render_context_append ctx (firstChar (replaceNl (strTrim t))) res
                refine ⟨sep ++ (normalTf t ++ ""), ?_,
                  fun hst => absurd hst (by decide)⟩
                simp only [hsep, normalTf, String.append_assoc, String.append_empty]
        | Element name attrs children =>
            simp only [render_node] at h
            by_cases ha : name = "a"
            · rw [if_pos ha] at h
              obtain ⟨d, hd, hn⟩ := iha _ _ _ _ _ _ h
              exact ⟨d, hd, hn⟩
            rw [if_neg ha] at h
            by_cases hspan : name = "span"
            · rw [if_pos hspan] at h
              obtain ⟨d, hd, hn⟩ := ihsp _ _ _ _ _ h
              exact ⟨d, hd, hn⟩
            rw [if_neg hspan] at h
            by_cases hstrong : name = "strong"
            · rw [if_pos hstrong] at h
              obtain ⟨d, hd, hn⟩ := ihstr _ _ _ _ _ h
              exact ⟨d, hd, hn⟩
            rw [if_neg hstrong] at h
            by_cases hscript : name = "script"
            · rw [if_pos hscript] at h
              simp only [Except.ok.injEq, Prod.mk.injEq] at h
              obtain ⟨rfl, rfl⟩ := h
              exact ⟨"", (String.append_empty res).symm, fun _ => rfl⟩
            rw [if_neg hscript] at h
            by_cases hul : name = "ul"
            · rw [if_pos hul] at h
              obtain ⟨d, hd, hn⟩ := ihul _ _ _ _ _ _ h
              exact ⟨d, hd, fun hst => (hn hst).2⟩
            rw [if_neg hul] at h
            by_cases hol : name = "ol"
            · rw [if_pos hol] at h
              obtain ⟨d, hd, hn⟩ := ihol _ _ _ _ _ _ _ h
              exact ⟨d, hd, fun hst => (hn hst).2⟩
            rw [if_neg hol] at h
            by_cases hcode : name = "code"
            · rw [if_pos hcode] at h
              obtain ⟨d, hd, hn⟩ := ihcd _ _ _ _ _ _ h
              exact ⟨d, hd, hn⟩
            rw [if_neg hcode] at h
            obtain ⟨d, hd, hn⟩ := ihb _ _ _ _ _ _ _ h
            exact ⟨d, hd, fun hst => (hn hst).2⟩
        | Comment t =>
            simp only [render_node, Except.ok.injEq, Prod.mk.injEq] at h
            obtain ⟨rfl, rfl⟩ := h
            exact ⟨"", (String.append_empty res).symm, fun _ => rfl⟩
        | Doctype t =>
            simp only [render_node, Except.ok.injEq, Prod.mk.injEq] at h
            obtain ⟨rfl, rfl⟩ := h
            exact ⟨"", (String.append_empty res).symm, fun _ => rfl⟩
        | ProcessingInstruction t =>
            simp only [render_node, Except.ok.injEq, Prod.mk.injEq] at h
            obtain ⟨rfl, rfl⟩ := h
            exact ⟨"", (String.append_empty res).symm, fun _ => rfl⟩
      · -- render_children
        intro ns pp ctx st0 res out st h
        cases ns with
        | nil =>
            simp only [render_children, Except.ok.injEq, Prod.mk.injEq] at h
            obtain ⟨rfl, rfl⟩ := h
            exact ⟨"", (String.append_empty res).symm, fun hst => ⟨hst, rfl⟩⟩
        | cons ch rest =>
            simp only [render_children] at h
            split at h
            · exact Except.noConfusion h
            · rename_i res1 st1 heq
              obtain ⟨d1, hd1, hn1⟩ := ihn _ _ _ _ _ _ heq
              obtain ⟨d2, hd2, hn2⟩ := ihc _ _ _ _ _ _ _ h
              refine ⟨d1 ++ d2, ?_, ?_⟩
              · simp only [hd2, hd1, String.append_assoc]
              · intro hst
                obtain ⟨hinit, hd2e⟩ := hn2 hst
                by_cases hr : st1.is_rendered = true
                · rw [if_pos hr] at hinit
                  rw [hinit] at hr
                  simp [RenderStatus.is_rendered] at hr
                · rw [if_neg hr] at hinit
                  simp only [Bool.not_eq_true] at hr
                  obtain rfl := (is_rendered_false_iff st1).mp hr
                  have hd1e := hn1 rfl
                  exact ⟨hinit, by simp [hd1e, hd2e]⟩
      · -- render_a
        intro attrs ns ctx res out st h
        simp only [render_a] at h
        obtain ⟨sep, hsep⟩ := render_context_append (ctx.merge .RequiresSpace) '[' res
        split at h
        · exact Except.noConfusion h
        · rename_i res1 st1 heq
          simp only [Except.ok.injEq, Prod.mk.injEq] at h
          obtain ⟨rfl, rfl⟩ := h
          obtain ⟨d1, hd1, _⟩ := ihc _ _ _ _ _ _ _ heq
          refine ⟨sep ++ ("[" ++ (d1 ++ ("](" ++ ((attrGet attrs "href").getD "" ++ ")")))),
            ?_, fun hst => absurd hst (by decide)⟩
          simp only [hd1, hsep, String.append_assoc]
      · -- render_span
        intro ns ctx res out st h
        simp only [render_span] at h
        obtain ⟨sep, hsep⟩ := render_context_append ctx ' ' res
        split at h
        · exact Except.noConfusion h
        · rename_i res1 st1 heq
          simp only [Except.ok.injEq, Prod.mk.injEq] at h
          obtain ⟨rfl, rfl⟩ := h
          obtain ⟨d1, hd1, _⟩ := ihc _ _ _ _ _ _ _ heq
          refine ⟨sep ++ d1, ?_, fun hst => absurd hst (by decide)⟩
          simp only [hd1, hsep, String.append_assoc]
      · -- render_strong
        intro ns ctx res out st h
        simp only [render_strong] at h
        obtain ⟨sep, hsep⟩ := render_context_append ctx ' ' res
        split at h
        · exact Except.noConfusion h
        · rename_i res1 st1 heq
          simp only [Except.ok.injEq, Prod.mk.injEq] at h
          obtain ⟨rfl, rfl⟩ := h
          obtain ⟨d1, hd1, _⟩ := ihc _ _ _ _ _ _ _ heq
          refine ⟨sep ++ ("**" ++ (d1 ++ "**")), ?_,
            fun hst => absurd hst (by decide)⟩
          simp only [hd1, hsep, String.append_assoc]
      · -- render_code
        intro pp ns ctx res out st h
        cases pp with
        | false =>
            obtain ⟨sep, hsep⟩ := render_context_append (ctx.merge .RequiresSpace) '`' res
            cases ns with
            | nil =>
                simp only [render_code] at h
                rw [if_pos (show (!false) = true from rfl)] at h
                exact Except.noConfusion h
            | cons ch rest =>
                simp only [render_code] at h
                rw [if_pos (show (!false) = true from rfl)] at h
                split at h
                · exact Except.noConfusion h
                · rename_i res1 st1 heq
                  simp only [Except.ok.injEq, Prod.mk.injEq] at h
                  obtain ⟨rfl, rfl⟩ := h
                  obtain ⟨d1, hd1, _⟩ := ihn _ _ _ _ _ _ heq
                  refine ⟨sep ++ ("`" ++ (d1 ++ "`")), ?_,
                    fun hst => absurd hst (by decide)⟩
                  simp only [hd1, hsep, String.append_assoc]
        | true =>
            simp only [render_code] at h
            rw [if_neg (show ¬ ((!true) = true) from by decide)] at h
            obtain ⟨sep, hsep⟩ := render_context_append ctx ' ' res
            by_cases hcond :
                ctx.context_type = ContextType.Inline ∨
                ctx.context_type = ContextType.RequiresSpace
            · rw [if_pos hcond] at h
              split at h
              · exact Except.noConfusion h
              · rename_i res4 heq
                rw [if_pos hcond] at h
                simp only [Except.ok.injEq, Prod.mk.injEq] at h
                obtain ⟨rfl, rfl⟩ := h
                obtain ⟨d1, hd1⟩ := ihcc _ _ _ _ heq
                refine ⟨sep ++ ("\n" ++ ((⟨List.replicate ctx.indent ' '⟩ : String) ++
                    ("```" ++ (d1 ++ ("\n" ++ ((⟨List.replicate ctx.indent ' '⟩ : String) ++
                      ("```" ++ ("\n" ++ (⟨List.replicate ctx.indent ' '⟩ : String))))))))),
                  ?_, fun hst => absurd hst (by decide)⟩
                simp only [hd1, hsep, new_line, String.append_assoc]
            · rw [if_neg hcond] at h
              split at h
              · exact Except.noConfusion h
              · rename_i res4 heq
                rw [if_neg hcond] at h
                simp only [Except.ok.injEq, Prod.mk.injEq] at h
                obtain ⟨rfl, rfl⟩ := h
                obtain ⟨d1, hd1⟩ := ihcc _ _ _ _ heq
                refine ⟨sep ++ ("```" ++ (d1 ++ ("\n" ++
                    ((⟨List.replicate ctx.indent ' '⟩ : String) ++ "```")))),
                  ?_, fun hst => absurd hst (by decide)⟩
                simp only [hd1, hsep, new_line, String.append_assoc]
      · -- render_ul_children
        intro ns ctx st0 res out st h
        cases ns with
        | nil =>
            simp only [render_ul_children, Except.ok.injEq, Prod.mk.injEq] at h
            obtain ⟨rfl, rfl⟩ := h
            exact ⟨"", (String.append_empty res).symm, fun hst => ⟨hst, rfl⟩⟩
        | cons ch rest =>
            simp only [render_ul_children] at h
            split at h
            · exact Except.noConfusion h
            · rename_i res1 st1 heq
              obtain ⟨d1, hd1, hn1⟩ := ihn _ _ _ _ _ _ heq
              obtain ⟨d2, hd2, hn2⟩ := ihul _ _ _ _ _ _ h
              refine ⟨d1 ++ d2, ?_, ?_⟩
              · simp only [hd2, hd1, String.append_assoc]
              · intro hst
                obtain ⟨hinit, hd2e⟩ := hn2 hst
                by_cases hr : st1.is_rendered = true
                · rw [if_pos hr] at hinit
                  exact absurd hinit (by decide)
                · rw [if_neg hr] at hinit
                  simp only [Bool.not_eq_true] at hr
                  obtain rfl := (is_rendered_false_iff st1).mp hr
                  have hd1e := hn1 rfl
                  exact ⟨hinit, by simp [hd1e, hd2e]⟩
      · -- render_ol_children
        intro ns ctx count st0 res out st h
        cases ns with
        | nil =>
            simp only [render_ol_children, Except.ok.injEq, Prod.mk.injEq] at h
            obtain ⟨rfl, rfl⟩ := h
            exact ⟨"", (String.append_empty res).symm, fun hst => ⟨hst, rfl⟩⟩
        | cons ch rest =>
            simp only [render_ol_children] at h
            split at h
            · exact Except.noConfusion h
            · rename_i res1 st1 heq
              obtain ⟨d1, hd1, hn1⟩ := ihn _ _ _ _ _ _ heq
              by_cases hr : st1.is_rendered = true
              · rw [if_pos hr] at h
                obtain ⟨d2, hd2, hn2⟩ := ihol _ _ _ _ _ _ _ h
                refine ⟨d1 ++ d2, ?_, ?_⟩
                · simp only [hd2, hd1, String.append_assoc]
                · intro hst
                  exact absurd (hn2 hst).1 (by decide)
              · rw [if_neg hr] at h
                simp only [Bool.not_eq_true] at hr
                obtain ⟨d2, hd2, hn2⟩ := ihol _ _ _ _ _ _ _ h
                refine ⟨d1 ++ d2, ?_, ?_⟩
                · simp only [hd2, hd1, String.append_assoc]
                · intro hst
                  obtain ⟨hinit, hd2e⟩ := hn2 hst
                  obtain rfl := (is_rendered_false_iff st1).mp hr
                  have hd1e := hn1 rfl
                  exact ⟨hinit, by simp [hd1e, hd2e]⟩
      · -- render_block_children
        intro ns pp ctx st0 res out st h
        cases ns with
        | nil =>
            simp only [render_block_children, Except.ok.injEq, Prod.mk.injEq] at h
            obtain ⟨rfl, rfl⟩ := h
            refine ⟨"", (String.append_empty res).symm, fun hst => ⟨?_, rfl⟩⟩
            by_cases hr : st0.is_rendered = true
            · rw [if_pos hr] at hst
              exact absurd hst (by decide)
            · simp only [Bool.not_eq_true] at hr
              exact (is_rendered_false_iff st0).mp hr
        | cons ch rest =>
            simp only [render_block_children] at h
            split at h
            · exact Except.noConfusion h
            · rename_i res1 st1 heq
              obtain ⟨d1, hd1, hn1⟩ := ihn _ _ _ _ _ _ heq
              obtain ⟨d2, hd2, hn2⟩ := ihb _ _ _ _ _ _ _ h
              refine ⟨d1 ++ d2, ?_, ?_⟩
              · simp only [hd2, hd1, String.append_assoc]
              · intro hst
                obtain ⟨hinit, hd2e⟩ := hn2 hst
                by_cases hr : st1.is_rendered = true
                · rw [if_pos hr] at hinit
                  rw [hinit] at hr
                  simp [RenderStatus.is_rendered] at hr
                · rw [if_neg hr] at hinit
                  simp only [Bool.not_eq_true] at hr
                  obtain rfl := (is_rendered_false_iff st1).mp hr
                  have hd1e := hn1 rfl
                  exact ⟨hinit, by simp [hd1e, hd2e]⟩
      · -- render_code_children
        intro ns ctx res out h
        cases ns with
        | nil =>
            simp only [render_code_children, Except.ok.injEq] at h
            subst h
            exact ⟨"", (String.append_empty res).symm⟩
        | cons ch rest =>
            simp only [render_code_children] at h
            split at h
            · exact Except.noConfusion h
            · rename_i res1 st1 heq
              obtain ⟨d1, hd1, _⟩ := ihn _ _ _ _ _ _ heq
              obtain ⟨d2, hd2⟩ := ihcc _ _ _ _ h
              exact ⟨"\n" ++ ((⟨List.replicate ctx.indent ' '⟩ : String) ++ (d1 ++ d2)),
                by simp only [hd2, hd1, new_line, String.append_assoc]⟩

/-- C9: `new_line`, `render_context`, `render_node` and `render_children`
only append to the output accumulator: the accumulator passed in is a
prefix of the returned accumulator (`∃ t, out = res ++ t`), so previously
emitted output is never modified or deleted. -/
theorem render_append_only :
    (∀ ctx res, ∃ t, new_line ctx res = res ++ t) ∧
    (∀ ctx c res, ∃ t, render_context ctx c res = res ++ t) ∧
    (∀ fuel n pp ctx res out st,
      render_node fuel n pp ctx res = .ok (out, st) → ∃ t, out = res ++ t) ∧
    (∀ fuel ns pp ctx st0 res out st,
      render_children fuel ns pp ctx st0 res = .ok (out, st) → ∃ t, out = res ++ t) := by
  refine ⟨fun ctx res => ⟨_, new_line_append ctx res⟩, render_context_append, ?_, ?_⟩
  · intro fuel n pp ctx res out st h
    obtain ⟨d, hd, -⟩ := (render_master fuel).1 n pp ctx res out st h
    exact ⟨d, hd⟩
  · intro fuel ns pp ctx st0 res out st h
    obtain ⟨d, hd, -⟩ := (render_master fuel).2.1 ns pp ctx st0 res out st h
    exact ⟨d, hd⟩

/-- C9 witness: the accumulator `"abc"` is a prefix of the output of a
concrete successful `render_node` call on a text node. -/
theorem render_append_only_witness : ∃ t : String, "abchi" = "abc" ++ t :=
  render_append_only.2.2.1 20 (.Text "hi") false initial_context "abc" "abchi"
    .Rendered (by decide)

/-- Emission lemma, proved by induction on fuel: every successful call of
a renderer function appends a delta in which the emitted-token list —
`emTexts` and its companions, pure functions of the input computed
without reference to the output — occurs disjointly and in order
(`Emits`, which cannot skip a token). -/
theorem emit_master (fuel : Nat) :
    (∀ n pp ctx res out st, render_node fuel n pp ctx res = .ok (out, st) →
      ∃ d, out = res ++ d ∧ Emits (emTexts fuel pp ctx.keep_prefix_space n) d) ∧
    (∀ ns pp ctx st0 res out st,
      render_children fuel ns pp ctx st0 res = .ok (out, st) →
      ∃ d, out = res ++ d ∧ Emits (emTextsList fuel pp ctx.keep_prefix_space ns) d) ∧
    (∀ attrs ns ctx res out st, render_a fuel attrs ns ctx res = .ok (out, st) →
      ∃ d, out = res ++ d ∧ Emits (emTextsInline fuel ctx.keep_prefix_space ns) d) ∧
    (∀ ns ctx res out st, render_span fuel ns ctx res = .ok (out, st) →
      ∃ d, out = res ++ d ∧ Emits (emTextsInline fuel ctx.keep_prefix_space ns) d) ∧
    (∀ ns ctx res out st, render_strong fuel ns ctx res = .ok (out, st) →
      ∃ d, out = res ++ d ∧ Emits (emTextsInline fuel ctx.keep_prefix_space ns) d) ∧
    (∀ pp ns ctx res out st, render_code fuel pp ns ctx res = .ok (out, st) →
      ∃ d, out = res ++ d ∧ Emits (emTextsCode fuel pp ctx.keep_prefix_space ns) d) ∧
    (∀ ns ctx st0 res out st, render_ul_children fuel ns ctx st0 res = .ok (out, st) →
      ∃ d, out = res ++ d ∧ Emits (emTextsList fuel false ctx.keep_prefix_space ns) d) ∧
    (∀ ns ctx count st0 res out st,
      render_ol_children fuel ns ctx count st0 res = .ok (out, st) →
      ∃ d, out = res ++ d ∧ Emits (emTextsList fuel false ctx.keep_prefix_space ns) d) ∧
    (∀ ns pp ctx st0 res out st,
      render_block_children fuel ns pp ctx st0 res = .ok (out, st) →
      ∃ d, out = res ++ d ∧ Emits (emTextsList fuel pp ctx.keep_prefix_space ns) d) ∧
    (∀ ns ctx res out, render_code_children fuel ns ctx res = .ok out →
      ∃ d, out = res ++ d ∧ Emits (emTextsList fuel false true ns) d) := by
  induction fuel with
  | zero =>
      refine ⟨?_, ?_, ?_, ?_, ?_, ?_, ?_, ?_, ?_, ?_⟩
      · intro n pp ctx res out st h
        simp only [render_node] at h
        exact Except.noConfusion h
      · intro ns pp ctx st0 res out st h
        simp only [render_children] at h
        exact Except.noConfusion h
      · intro attrs ns ctx res out st h
        simp only [render_a] at h
        exact Except.noConfusion h
      · intro ns ctx res out st h
        simp only [render_span] at h
        exact Except.noConfusion h
      · intro ns ctx res out st h
        simp only [render_strong] at h
        exact Except.noConfusion h
      · intro pp ns ctx res out st h
        simp only [render_code] at h
        exact Except.noConfusion h
      · intro ns ctx st0 res out st h
        simp only [render_ul_children] at h
        exact Except.noConfusion h
      · intro ns ctx count st0 res out st h
        simp only [render_ol_children] at h
        exact Except.noConfusion h
      · intro ns pp ctx st0 res out st h
        simp only [render_block_children] at h
        exact Except.noConfusion h
      · intro ns ctx res out h
        simp only [render_code_children] at h
        exact Except.noConfusion h
  | succ fuel ih =>
      obtain ⟨ihn, ihc, iha, ihsp, ihstr, ihcd, ihul, ihol, ihb, ihcc⟩ := ih
      refine ⟨?_, ?_, ?_, ?_, ?_, ?_, ?_, ?_, ?_, ?_⟩
      · -- render_node
        intro n pp ctx res out st h
        cases n with
        | Document children =>
            simp only [render_node] at h
            obtain ⟨d, hd, ht⟩ := ihc _ _ _ _ _ _ _ h
            exact ⟨d, hd, by simpa [emTexts] using ht⟩
        | Fragment children =>
            simp only [render_node] at h
            obtain ⟨d, hd, ht⟩ := ihc _ _ _ _ _ _ _ h
            exact ⟨d, hd, by simpa [emTexts] using ht⟩
        | Text t =>
            simp only [render_node] at h
            by_cases hk : ctx.keep_prefix_space = true
            · rw [if_pos hk] at h
              by_cases he : t = ""
              · rw [if_pos he] at h
                simp only [Except.ok.injEq, Prod.mk.injEq] at h
                obtain ⟨rfl, rfl⟩ := h
                refine ⟨"", (String.append_empty res).symm, ?_⟩
                simpa [emTexts, hk, he] using Emits.nil ""
              · rw [if_neg he] at h
                simp only [Except.ok.injEq, Prod.mk.injEq] at h
                obtain ⟨rfl, rfl⟩ := h
                obtain ⟨sep, hsep⟩ :=
                  render_context_append ctx (firstChar (replaceNl t)) res
                refine ⟨sep ++ replaceNl t, ?_, ?_⟩
                · simp only [hsep, String.append_assoc]
                · simpa [emTexts, hk, he] using emits_single (replaceNl t) sep
            · rw [if_neg hk] at h
              by_cases he : strTrim t = ""
              · rw [if_pos he] at h
                simp only [Except.ok.injEq, Prod.mk.injEq] at h
                obtain ⟨rfl, rfl⟩ := h
                refine ⟨"", (String.append_empty res).symm, ?_⟩
                simpa [emTexts, hk, he] using Emits.nil ""
              · rw [if_neg he] at h
                simp only [Except.ok.injEq, Prod.mk.injEq] at h
                obtain ⟨rfl, rfl⟩ := h
                obtain ⟨sep, hsep⟩ :=
                  render_context_append ctx (firstChar (replaceNl (strTrim t))) res
                refine ⟨sep ++ replaceNl (strTrim t), ?_, ?_⟩
                · simp only [hsep, String.append_assoc]
                · simpa [emTexts, hk, he] using
                    emits_single (replaceNl (strTrim t)) sep
        | Element name attrs children =>
            simp only [render_node] at h
            simp only [emTexts]
            by_cases ha : name = "a"
            · rw [if_pos ha] at h
              obtain ⟨d, hd, ht⟩ := iha _ _ _ _ _ _ h
              exact ⟨d, hd, by rw [if_pos ha]; exact ht⟩
            rw [if_neg ha] at h
            simp only [if_neg ha]
            by_cases hspan : name = "span"
            · rw [if_pos hspan] at h
              obtain ⟨d, hd, ht⟩ := ihsp _ _ _ _ _ h
              exact ⟨d, hd, by rw [if_pos hspan]; exact ht⟩
            rw [if_neg hspan] at h
            simp only [if_neg hspan]
            by_cases hstrong : name = "strong"
            · rw [if_pos hstrong] at h
              obtain ⟨d, hd, ht⟩ := ihstr _ _ _ _ _ h
              exact ⟨d, hd, by rw [if_pos hstrong]; exact ht⟩
            rw [if_neg hstrong] at h
            simp only [if_neg hstrong]
            by_cases hscript : name = "script"
            · rw [if_pos hscript] at h
              simp only [Except.ok.injEq, Prod.mk.injEq] at h
              obtain ⟨rfl, rfl⟩ := h
              exact ⟨"", (String.append_empty res).symm,
                by rw [if_pos hscript]; exact Emits.nil ""⟩
            rw [if_neg hscript] at h
            simp only [if_neg hscript]
            by_cases hul : name = "ul"
            · rw [if_pos hul] at h
              obtain ⟨d, hd, ht⟩ := ihul _ _ _ _ _ _ h
              exact ⟨d, hd, by rw [if_pos hul]; exact ht⟩
            rw [if_neg hul] at h
            simp only [if_neg hul]
            by_cases hol : name = "ol"
            · rw [if_pos hol] at h
              obtain ⟨d, hd, ht⟩ := ihol _ _ _ _ _ _ _ h
              exact ⟨d, hd, by rw [if_pos hol]; exact ht⟩
            rw [if_neg hol] at h
            simp only [if_neg hol]
            by_cases hcode : name = "code"
            · rw [if_pos hcode] at h
              obtain ⟨d, hd, ht⟩ := ihcd _ _ _ _ _ _ h
              exact ⟨d, hd, by rw [if_pos hcode]; exact ht⟩
            rw [if_neg hcode] at h
            simp only [if_neg hcode]
            exact ihb _ _ _ _ _ _ _ h
        | Comment t =>
            simp only [render_node, Except.ok.injEq, Prod.mk.injEq] at h
            obtain ⟨rfl, rfl⟩ := h
            exact ⟨"", (String.append_empty res).symm,
              by simpa [emTexts] using Emits.nil ""⟩
        | Doctype t =>
            simp only [render_node, Except.ok.injEq, Prod.mk.injEq] at h
            obtain ⟨rfl, rfl⟩ := h
            exact ⟨"", (String.append_empty res).symm,
              by simpa [emTexts] using Emits.nil ""⟩
        | ProcessingInstruction t =>
            simp only [render_node, Except.ok.injEq, Prod.mk.injEq] at h
            obtain ⟨rfl, rfl⟩ := h
            exact ⟨"", (String.append_empty res).symm,
              by simpa [emTexts] using Emits.nil ""⟩
      · -- render_children
        intro ns pp ctx st0 res out st h
        cases ns with
        | nil =>
            simp only [render_children, Except.ok.injEq, Prod.mk.injEq] at h
            obtain ⟨rfl, rfl⟩ := h
            exact ⟨"", (String.append_empty res).symm,
              by simpa [emTextsList] using Emits.nil ""⟩
        | cons ch rest =>
            simp only [render_children] at h
            split at h
            · exact Except.noConfusion h
            · rename_i res1 st1 heq
              obtain ⟨d1, hd1, ht1⟩ := ihn _ _ _ _ _ _ heq
              obtain ⟨d2, hd2, ht2⟩ := ihc _ _ _ _ _ _ _ h
              refine ⟨d1 ++ d2, ?_, ?_⟩
              · simp only [hd2, hd1, String.append_assoc]
              · simpa only [emTextsList] using emits_concat ht1 ht2
      · -- render_a
        intro attrs ns ctx res out st h
        simp only [render_a] at h
        obtain ⟨sep, hsep⟩ := render_context_append (ctx.merge .RequiresSpace) '[' res
        split at h
        · exact Except.noConfusion h
        · rename_i res1 st1 heq
          simp only [Except.ok.injEq, Prod.mk.injEq] at h
          obtain ⟨rfl, rfl⟩ := h
          obtain ⟨d1, hd1, ht1⟩ := ihc _ _ _ _ _ _ _ heq
          refine ⟨sep ++ ("[" ++ (d1 ++ ("](" ++ ((attrGet attrs "href").getD "" ++ ")")))),
            ?_, ?_⟩
          · simp only [hd1, hsep, String.append_assoc]
          · simp only [emTextsInline]
            exact emits_prepend sep (emits_prepend "[" (emits_append_right _ ht1))
      · -- render_span
        intro ns ctx res out st h
        simp only [render_span] at h
        obtain ⟨sep, hsep⟩ := render_context_append ctx ' ' res
        split at h
        · exact Except.noConfusion h
        · rename_i res1 st1 heq
          simp only [Except.ok.injEq, Prod.mk.injEq] at h
          obtain ⟨rfl, rfl⟩ := h
          obtain ⟨d1, hd1, ht1⟩ := ihc _ _ _ _ _ _ _ heq
          refine ⟨sep ++ d1, ?_, ?_⟩
          · simp only [hd1, hsep, String.append_assoc]
          · simp only [emTextsInline]
            exact emits_prepend sep ht1
      · -- render_strong
        intro ns ctx res out st h
        simp only [render_strong] at h
        obtain ⟨sep, hsep⟩ := render_context_append ctx ' ' res
        split at h
        · exact Except.noConfusion h
        · rename_i res1 st1 heq
          simp only [Except.ok.injEq, Prod.mk.injEq] at h
          obtain ⟨rfl, rfl⟩ := h
          obtain ⟨d1, hd1, ht1⟩ := ihc _ _ _ _ _ _ _ heq
          refine ⟨sep ++ ("**" ++ (d1 ++ "**")), ?_, ?_⟩
          · simp only [hd1, hsep, String.append_assoc]
          · simp only [emTextsInline]
            exact emits_prepend sep (emits_prepend "**" (emits_append_right _ ht1))
      · -- render_code
        intro pp ns ctx res out st h
        cases pp with
        | false =>
            obtain ⟨sep, hsep⟩ := render_context_append (ctx.merge .RequiresSpace) '`' res
            cases ns with
            | nil =>
                simp only [render_code] at h
                rw [if_pos (show (!false) = true from rfl)] at h
                exact Except.noConfusion h
            | cons ch rest =>
                simp only [render_code] at h
                rw [if_pos (show (!false) = true from rfl)] at h
                split at h
                · exact Except.noConfusion h
                · rename_i res1 st1 heq
                  simp only [Except.ok.injEq, Prod.mk.injEq] at h
                  obtain ⟨rfl, rfl⟩ := h
                  obtain ⟨d1, hd1, ht1⟩ := ihn _ _ _ _ _ _ heq
                  refine ⟨sep ++ ("`" ++ (d1 ++ "`")), ?_, ?_⟩
                  · simp only [hd1, hsep, String.append_assoc]
                  · simp only [emTextsCode]
                    rw [if_pos (show (!false) = true from rfl)]
                    exact emits_prepend sep (emits_prepend "`"
                      (emits_append_right _ ht1))
        | true =>
            simp only [render_code] at h
            rw [if_neg (show ¬ ((!true) = true) from by decide)] at h
            obtain ⟨sep, hsep⟩ := render_context_append ctx ' ' res
            by_cases hcond :
                ctx.context_type = ContextType.Inline ∨
                ctx.context_type = ContextType.RequiresSpace
            · rw [if_pos hcond] at h
              split at h
              · exact Except.noConfusion h
              · rename_i res4 heq
                rw [if_pos hcond] at h
                simp only [Except.ok.injEq, Prod.mk.injEq] at h
                obtain ⟨rfl, rfl⟩ := h
                obtain ⟨d1, hd1, ht1⟩ := ihcc _ _ _ _ heq
                refine ⟨sep ++ ("\n" ++ ((⟨List.replicate ctx.indent ' '⟩ : String) ++
                    ("```" ++ (d1 ++ ("\n" ++ ((⟨List.replicate ctx.indent ' '⟩ : String) ++
                      ("```" ++ ("\n" ++ (⟨List.replicate ctx.indent ' '⟩ : String))))))))),
                  ?_, ?_⟩
                · simp only [hd1, hsep, new_line, String.append_assoc]
                · simp only [emTextsCode]
                  rw [if_neg (show ¬ ((!true) = true) from by decide)]
                  exact emits_prepend sep (emits_prepend "\n" (emits_prepend _
                    (emits_prepend "```" (emits_append_right _ ht1))))
            · rw [if_neg hcond] at h
              split at h
              · exact Except.noConfusion h
              · rename_i res4 heq
                rw [if_neg hcond] at h
                simp only [Except.ok.injEq, Prod.mk.injEq] at h
                obtain ⟨rfl, rfl⟩ := h
                obtain ⟨d1, hd1, ht1⟩ := ihcc _ _ _ _ heq
                refine ⟨sep ++ ("```" ++ (d1 ++ ("\n" ++
                    ((⟨List.replicate ctx.indent ' '⟩ : String) ++ "```")))),
                  ?_, ?_⟩
                · simp only [hd1, hsep, new_line, String.append_assoc]
                · simp only [emTextsCode]
                  rw [if_neg (show ¬ ((!true) = true) from by decide)]
                  exact emits_prepend sep (emits_prepend "```"
                    (emits_append_right _ ht1))
      · -- render_ul_children
        intro ns ctx st0 res out st h
        cases ns with
        | nil =>
            simp only [render_ul_children, Except.ok.injEq, Prod.mk.injEq] at h
            obtain ⟨rfl, rfl⟩ := h
            exact ⟨"", (String.append_empty res).symm,
              by simpa [emTextsList] using Emits.nil ""⟩
        | cons ch rest =>
            simp only [render_ul_children] at h
            split at h
            · exact Except.noConfusion h
            · rename_i res1 st1 heq
              obtain ⟨d1, hd1, ht1⟩ := ihn _ _ _ _ _ _ heq
              rw [merge_keep] at ht1
              obtain ⟨d2, hd2, ht2⟩ := ihul _ _ _ _ _ _ h
              refine ⟨d1 ++ d2, ?_, ?_⟩
              · simp only [hd2, hd1, String.append_assoc]
              · simpa only [emTextsList] using emits_concat ht1 ht2
      · -- render_ol_children
        intro ns ctx count st0 res out st h
        cases ns with
        | nil =>
            simp only [render_ol_children, Except.ok.injEq, Prod.mk.injEq] at h
            obtain ⟨rfl, rfl⟩ := h
            exact ⟨"", (String.append_empty res).symm,
              by simpa [emTextsList] using Emits.nil ""⟩
        | cons ch rest =>
            simp only [render_ol_children] at h
            split at h
            · exact Except.noConfusion h
            · rename_i res1 st1 heq
              obtain ⟨d1, hd1, ht1⟩ := ihn _ _ _ _ _ _ heq
              rw [merge_keep] at ht1
              by_cases hr : st1.is_rendered = true
              · rw [if_pos hr] at h
                obtain ⟨d2, hd2, ht2⟩ := ihol _ _ _ _ _ _ _ h
                refine ⟨d1 ++ d2, ?_, ?_⟩
                · simp only [hd2, hd1, String.append_assoc]
                · simpa only [emTextsList] using emits_concat ht1 ht2
              · rw [if_neg hr] at h
                obtain ⟨d2, hd2, ht2⟩ := ihol _ _ _ _ _ _ _ h
                refine ⟨d1 ++ d2, ?_, ?_⟩
                · simp only [hd2, hd1, String.append_assoc]
                · simpa only [emTextsList] using emits_concat ht1 ht2
      · -- render_block_children
        intro ns pp ctx st0 res out st h
        cases ns with
        | nil =>
            simp only [render_block_children, Except.ok.injEq, Prod.mk.injEq] at h
            obtain ⟨rfl, rfl⟩ := h
            exact ⟨"", (String.append_empty res).symm,
              by simpa [emTextsList] using Emits.nil ""⟩
        | cons ch rest =>
            cases st0 with
            | NotRendered =>
                simp only [render_block_children] at h
                split at h
                · exact Except.noConfusion h
                · rename_i res1 st1 heq
                  obtain ⟨d1, hd1, ht1⟩ := ihn _ _ _ _ _ _ heq
                  rw [merge_keep] at ht1
                  obtain ⟨d2, hd2, ht2⟩ := ihb _ _ _ _ _ _ _ h
                  refine ⟨d1 ++ d2, ?_, ?_⟩
                  · simp only [hd2, hd1, String.append_assoc]
                  · simpa only [emTextsList] using emits_concat ht1 ht2
            | Rendered =>
                simp only [render_block_children] at h
                split at h
                · exact Except.noConfusion h
                · rename_i res1 st1 heq
                  obtain ⟨d1, hd1, ht1⟩ := ihn _ _ _ _ _ _ heq
                  obtain ⟨d2, hd2, ht2⟩ := ihb _ _ _ _ _ _ _ h
                  refine ⟨d1 ++ d2, ?_, ?_⟩
                  · simp only [hd2, hd1, String.append_assoc]
                  · simpa only [emTextsList] using emits_concat ht1 ht2
            | RenderedRequiresSpace =>
                simp only [render_block_children] at h
                split at h
                · exact Except.noConfusion h
                · rename_i res1 st1 heq
                  obtain ⟨d1, hd1, ht1⟩ := ihn _ _ _ _ _ _ heq
                  obtain ⟨d2, hd2, ht2⟩ := ihb _ _ _ _ _ _ _ h
                  refine ⟨d1 ++ d2, ?_, ?_⟩
                  · simp only [hd2, hd1, String.append_assoc]
                  · simpa only [emTextsList] using emits_concat ht1 ht2
      · -- render_code_children
        intro ns ctx res out h
        cases ns with
        | nil =>
            simp only [render_code_children, Except.ok.injEq] at h
            subst h
            exact ⟨"", (String.append_empty res).symm,
              by simpa [emTextsList] using Emits.nil ""⟩
        | cons ch rest =>
            simp only [render_code_children] at h
            split at h
            · exact Except.noConfusion h
            · rename_i res1 st1 heq
              obtain ⟨d1, hd1, ht1⟩ := ihn _ _ _ _ _ _ heq
              obtain ⟨d2, hd2, ht2⟩ := ihcc _ _ _ _ h
              refine ⟨"\n" ++ ((⟨List.replicate ctx.indent ' '⟩ : String) ++ (d1 ++ d2)),
                ?_, ?_⟩
              · simp only [hd2, hd1, new_line, String.append_assoc]
              · simp only [emTextsList]
                exact emits_prepend "\n" (emits_prepend _ (emits_concat ht1 ht2))

/-- The emitted-token list is an order-preserving transformed selection of
the depth-first text-node stream: tokens may be deleted (`script`
subtrees, empty texts, non-first inline-code children) but never
reordered, and each kept token is `normalTf` or `rawTf` of its source
token. -/
theorem selTf_emTexts (fuel : Nat) :
    (∀ pp keep n, SelTf (dfsTexts n) (emTexts fuel pp keep n)) ∧
    (∀ pp keep ns, SelTf (dfsTextsList ns) (emTextsList fuel pp keep ns)) ∧
    (∀ keep ns, SelTf (dfsTextsList ns) (emTextsInline fuel keep ns)) ∧
    (∀ pp keep ns, SelTf (dfsTextsList ns) (emTextsCode fuel pp keep ns)) := by
  induction fuel with
  | zero =>
      refine ⟨?_, ?_, ?_, ?_⟩
      · intro pp keep n
        simpa [emTexts] using selTf_drop_all (dfsTexts n)
      · intro pp keep ns
        simpa [emTextsList] using selTf_drop_all (dfsTextsList ns)
      · intro keep ns
        simpa [emTextsInline] using selTf_drop_all (dfsTextsList ns)
      · intro pp keep ns
        simpa [emTextsCode] using selTf_drop_all (dfsTextsList ns)
  | succ fuel ih =>
      obtain ⟨ihn, ihl, ihi, ihcd⟩ := ih
      refine ⟨?_, ?_, ?_, ?_⟩
      · intro pp keep n
        cases n with
        | Document children =>
            simpa [emTexts, dfsTexts] using ihl false keep children
        | Fragment children =>
            simpa [emTexts, dfsTexts] using ihl false keep children
        | Text t =>
            by_cases hk : keep = true
            · by_cases he : t = ""
              · simpa [emTexts, dfsTexts, hk, he] using
                  SelTf.drop t [] [] SelTf.nil
              · simpa [emTexts, dfsTexts, hk, he, rawTf] using
                  SelTf.keepR t [] [] SelTf.nil
            · by_cases he : strTrim t = ""
              · simpa [emTexts, dfsTexts, hk, he] using
                  SelTf.drop t [] [] SelTf.nil
              · simpa [emTexts, dfsTexts, hk, he, normalTf] using
                  SelTf.keepN t [] [] SelTf.nil
        | Element name attrs children =>
            simp only [emTexts, dfsTexts]
            by_cases ha : name = "a"
            · rw [if_pos ha]
              exact ihi keep children
            rw [if_neg ha]
            by_cases hspan : name = "span"
            · rw [if_pos hspan]
              exact ihi keep children
            rw [if_neg hspan]
            by_cases hstrong : name = "strong"
            · rw [if_pos hstrong]
              exact ihi keep children
            rw [if_neg hstrong]
            by_cases hscript : name = "script"
            · rw [if_pos hscript]
              exact selTf_drop_all (dfsTextsList children)
            rw [if_neg hscript]
            by_cases hul : name = "ul"
            · rw [if_pos hul]
              exact ihl false keep children
            rw [if_neg hul]
            by_cases hol : name = "ol"
            · rw [if_pos hol]
              exact ihl false keep children
            rw [if_neg hol]
            by_cases hcode : name = "code"
            · rw [if_pos hcode]
              exact ihcd pp keep children
            rw [if_neg hcode]
            exact ihl (name = "pre") keep children
        | Comment t => simpa [emTexts, dfsTexts] using SelTf.nil
        | Doctype t => simpa [emTexts, dfsTexts] using SelTf.nil
        | ProcessingInstruction t => simpa [emTexts, dfsTexts] using SelTf.nil
      · intro pp keep ns
        cases ns with
        | nil => simpa [emTextsList, dfsTextsList] using SelTf.nil
        | cons n rest =>
            have := selTf_concat (ihn pp keep n) (ihl pp keep rest)
            simpa [emTextsList, dfsTextsList] using this
      · intro keep ns
        simpa [emTextsInline] using ihl false keep ns
      · intro pp keep ns
        cases pp with
        | false =>
            cases ns with
            | nil => simpa [emTextsCode, dfsTextsList] using SelTf.nil
            | cons ch rest =>
                have := selTf_concat (ihn false keep ch)
                  (selTf_drop_all (dfsTextsList rest))
                simpa [emTextsCode, dfsTextsList] using this
        | true =>
            simpa [emTextsCode] using ihl false true ns

/-- The emitted-token list of the scenario tree
`<p>Hello <a href="http://x">there</a>.</p>` evaluates to the three
transformed text tokens, in depth-first order — the `Emits` conclusion
over this tree is satisfied by no output that omits or reorders any of
them. -/
theorem emTexts_exP :
    emTexts 20 false false exP = ["Hello", "there", "."] := by
  decide

/-- C8: a successful render appends a delta in which the emitted-token
list `emTexts` — a pure function of the input tree mirroring the
renderer's dispatch — occurs disjointly and in exactly the listed order
(`Emits` has no constructor that skips a token), and that list is an
order-preserving transformed selection of the tree's text tokens in
depth-first order (`SelTf` deletes or transforms tokens, never swaps
two).  Stripping the inserted markup — the pieces between the emitted
tokens — thus recovers the rendered text content in exactly depth-first
document order: the renderer never reorders content. -/
theorem render_text_order (fuel : Nat) (n : Node) (pp : Bool) (ctx : Context)
    (res out : String) (st : RenderStatus)
    (h : render_node fuel n pp ctx res = .ok (out, st)) :
    ∃ d, out = res ++ d ∧
      Emits (emTexts fuel pp ctx.keep_prefix_space n) d ∧
      SelTf (dfsTexts n) (emTexts fuel pp ctx.keep_prefix_space n) := by
  obtain ⟨d, hd, ht⟩ := (emit_master fuel).1 n pp ctx res out st h
  exact ⟨d, hd, ht, (selTf_emTexts fuel).1 pp ctx.keep_prefix_space n⟩

/-- C8 witness: the theorem applied to the rendering of
`<p>Hello <a href="http://x">there</a>.</p>`; the emitted-token list of
this tree is concretely `["Hello", "there", "."]` (see `emTexts_exP`),
each of which `Emits` forces to occur, in that order, in the output. -/
theorem render_text_order_witness :
    ∃ d, "\n\nHello [there](http://x)." = "" ++ d ∧
      Emits (emTexts 20 false initial_context.keep_prefix_space exP) d ∧
      SelTf (dfsTexts exP) (emTexts 20 false initial_context.keep_prefix_space exP) :=
  render_text_order 20 exP false initial_context "" "\n\nHello [there](http://x)."
    .Rendered (by decide)

/-- Helper: the code-side generic block loop is the claim-side loop under
the status encoding. -/
theorem block_children_eq_claim (fuel : Nat) :
    ∀ ns pp ctx st res, render_block_children fuel ns pp ctx st res =
      genericRenderClaim fuel ns pp ctx (statusEnc st) res := by
  induction fuel with
  | zero =>
      intro ns pp ctx st res
      rfl
  | succ fuel ih =>
      intro ns pp ctx st res
      cases ns with
      | nil => cases st <;> rfl
      | cons ch rest =>
          cases st <;>
            · simp only [render_block_children, genericRenderClaim, statusEnc]
              split <;> rename_i heq
              · rfl
              · rename_i res1 st1
                rw [ih]
                cases st1 <;> rfl

/-- Helper: a tag without special handling dispatches to the generic
block-container loop, which equals the claim-side formulation. -/
theorem render_node_generic (fuel : Nat) (name : String)
    (attrs : List (String × String)) (children : List Node) (pp : Bool)
    (ctx : Context) (res : String)
    (h1 : name ≠ "a") (h2 : name ≠ "span") (h3 : name ≠ "strong")
    (h4 : name ≠ "script") (h5 : name ≠ "ul") (h6 : name ≠ "ol")
    (h7 : name ≠ "code") :
    render_node (fuel + 1) (.Element name attrs children) pp ctx res =
      genericRenderClaim fuel children (name = "pre") ctx none res := by
  simp only [render_node, if_neg h1, if_neg h2, if_neg h3, if_neg h4, if_neg h5,
    if_neg h6, if_neg h7]
  rw [block_children_eq_claim]
  rfl

/-- C3: for every element whose tag has no special handling, `render_node`
equals the claim-side generic-container loop: children are rendered in
order, the context passed to each child is chosen by the running status of
the previous children (`NewParagraph` merged while nothing rendered,
`Inline` after `Rendered`, `RequiresSpace` after `RenderedRequiresSpace`),
and the element returns `Rendered` iff some child rendered. -/
theorem generic_container_spec (fuel : Nat) (name : String)
    (attrs : List (String × String)) (children : List Node) (pp : Bool)
    (ctx : Context) (res : String)
    (h : name ∉ (["a", "span", "strong", "script", "ul", "ol", "code"] : List String)) :
    render_node (fuel + 1) (.Element name attrs children) pp ctx res =
      genericRenderClaim fuel children (name = "pre") ctx none res := by
  simp only [List.mem_cons, List.not_mem_nil, or_false, not_or] at h
  obtain ⟨h1, h2, h3, h4, h5, h6, h7⟩ := h
  exact render_node_generic fuel name attrs children pp ctx res h1 h2 h3 h4 h5 h6 h7

/-- C3 witness: the theorem applied to a `p` element, and the resulting
claim-side computation evaluated. -/
theorem generic_container_spec_witness :
    render_node 3 (.Element "p" [] [.Text "x"]) false initial_context "" =
      genericRenderClaim 2 [.Text "x"] ("p" = "pre") initial_context none "" ∧
    genericRenderClaim 2 [.Text "x"] ("p" = "pre") initial_context none "" =
      .ok ("\n\nx", .Rendered) :=
  ⟨generic_container_spec 2 "p" [] [.Text "x"] false initial_context "" (by decide),
   by decide⟩

/-- C6 counterexample: a `head` element with a text child does not return
`NotRendered` with nothing appended — it is handled as a generic block
container and renders its text child (with a paragraph break). -/
theorem ignored_tags_counterexample :
    render_node 20 exHead false initial_context "" = .ok ("\n\nx", .Rendered) ∧
    (RenderStatus.Rendered ≠ RenderStatus.NotRendered ∧ ("\n\nx" : String) ≠ "") := by
  exact ⟨by decide, by decide, by decide⟩

/-- C6 amended: of the tags the claim lists, only `script` returns
`NotRendered` unconditionally and appends nothing; `head`, `noscript`,
`img`, `picture`, `audio`, `video` and `source` are handled as generic
block containers (their children are rendered), returning `NotRendered`
only when no child renders. -/
theorem ignored_tags_spec :
    (∀ fuel attrs children pp ctx res,
      render_node (fuel + 1) (.Element "script" attrs children) pp ctx res =
        .ok (res, .NotRendered)) ∧
    (∀ name, name ∈ (["head", "noscript", "img", "picture", "audio", "video",
        "source"] : List String) →
      ∀ fuel attrs children pp ctx res,
        render_node (fuel + 1) (.Element name attrs children) pp ctx res =
          genericRenderClaim fuel children (name = "pre") ctx none res) := by
  constructor
  · intro fuel attrs children pp ctx res
    simp only [render_node]
    rw [if_pos trivial]
    rw [if_neg (by decide), if_neg (by decide), if_neg (by decide)]
  · intro name hname fuel attrs children pp ctx res
    fin_cases hname <;>
      exact render_node_generic fuel _ attrs children pp ctx res
        (by decide) (by decide) (by decide) (by decide) (by decide)
        (by decide) (by decide)

/-- C6 witness: the amended theorem applied at `head`, with the resulting
generic-container computation evaluated. -/
theorem ignored_tags_spec_witness :
    render_node 20 (.Element "script" [] [.Text "x"]) false initial_context "y" =
      .ok ("y", .NotRendered) ∧
    render_node 20 (.Element "head" [] [.Text "x"]) false initial_context "" =
      genericRenderClaim 19 [.Text "x"] ("head" = "pre") initial_context none "" ∧
    genericRenderClaim 19 [.Text "x"] ("head" = "pre") initial_context none "" =
      .ok ("\n\nx", .Rendered) :=
  ⟨ignored_tags_spec.1 19 [] [.Text "x"] false initial_context "y",
   ignored_tags_spec.2 "head" (by decide) 19 [] [.Text "x"] false initial_context "",
   by decide⟩

/-- Helper: `render_ol_children` is `ol_trace` with the recorded ordinals
erased. -/
theorem ol_trace_erase (fuel : Nat) :
    ∀ ns ctx count status res,
      render_ol_children fuel ns ctx count status res =
        (ol_trace fuel ns ctx count status res).map (fun r => (r.1, r.2.1)) := by
  induction fuel with
  | zero => intro ns ctx count status res; rfl
  | succ fuel ih =>
      intro ns ctx count status res
      cases ns with
      | nil => rfl
      | cons ch rest =>
          simp only [render_ol_children, ol_trace]
          cases hc : render_node fuel ch false (ctx.merge (.OrderedList count)) res with
          | error e => rfl
          | ok p =>
              obtain ⟨res1, st1⟩ := p
              dsimp only
              by_cases hr : st1.is_rendered = true
              · rw [if_pos hr, if_pos hr, ih]
                cases ho : ol_trace fuel rest ctx (count + 1) .Rendered res1 <;>
                  simp [Except.map]
              · rw [if_neg hr, if_neg hr]
                exact ih rest ctx count status res1

/-- Helper: the ordinals recorded by `ol_trace` starting at `count` are
exactly `count, count+1, ...` — one per rendered child, in order. -/
theorem ol_trace_ordinals (fuel : Nat) :
    ∀ ns ctx count status res out st l,
      ol_trace fuel ns ctx count status res = .ok (out, st, l) →
      l = List.range' count l.length := by
  induction fuel with
  | zero =>
      intro ns ctx count status res out st l h
      exact Except.noConfusion h
  | succ fuel ih =>
      intro ns ctx count status res out st l h
      cases ns with
      | nil =>
          simp only [ol_trace, Except.ok.injEq, Prod.mk.injEq] at h
          obtain ⟨-, -, rfl⟩ := h
          rfl
      | cons ch rest =>
          simp only [ol_trace] at h
          split at h
          · exact Except.noConfusion h
          · rename_i res1 st1 heq
            by_cases hr : st1.is_rendered = true
            · rw [if_pos hr] at h
              cases ho : ol_trace fuel rest ctx (count + 1) .Rendered res1 with
              | error e =>
                  rw [ho] at h
                  exact Except.noConfusion h
              | ok r =>
                  rw [ho] at h
                  simp only [Except.map, Except.ok.injEq, Prod.mk.injEq] at h
                  obtain ⟨-, -, rfl⟩ := h
                  have hrec := ih rest ctx (count + 1) .Rendered res1 r.1 r.2.1 r.2.2
                    (by rw [ho])
                  show count :: r.2.2 = List.range' count (r.2.2.length + 1)
                  rw [List.range'_succ]
                  rw [← hrec]
            · rw [if_neg hr] at h
              exact ih rest ctx count status res1 out st l h

/-- C4: rendering an `ol` element equals the instrumented trace, the
ordinals assigned to the children that rendered are exactly `1 .. M` in
document order (`M` = number of rendered children), and a child returning
`NotRendered` consumes no ordinal and appends nothing to the output. -/
theorem ol_ordinal_assignment (fuel : Nat) (attrs : List (String × String))
    (children : List Node) (pp : Bool) (ctx : Context) (res out : String)
    (st : RenderStatus)
    (h : render_node (fuel + 1) (.Element "ol" attrs children) pp ctx res =
      .ok (out, st)) :
    ∃ l, ol_trace fuel children ctx 1 .NotRendered res = .ok (out, st, l) ∧
      l = List.range' 1 l.length ∧
      (∀ fuel2 n k s s1,
        render_node fuel2 n false (ctx.merge (.OrderedList k)) s =
          .ok (s1, .NotRendered) → s1 = s) := by
  simp only [render_node] at h
  rw [if_neg (by decide), if_neg (by decide), if_neg (by decide),
    if_neg (by decide), if_neg (by decide), if_pos trivial] at h
  rw [ol_trace_erase] at h
  cases ho : ol_trace fuel children ctx 1 .NotRendered res with
  | error e =>
      rw [ho] at h
      exact Except.noConfusion h
  | ok r =>
      rw [ho] at h
      simp only [Except.map, Except.ok.injEq, Prod.mk.injEq] at h
      obtain ⟨h1, h2⟩ := h
      refine ⟨r.2.2, ?_, ol_trace_ordinals fuel children ctx 1 .NotRendered res
        r.1 r.2.1 r.2.2 (by rw [ho]), ?_⟩
      · rw [show out = r.1 from h1.symm, show st = r.2.1 from h2.symm]
      · intro fuel2 n k s s1 hn
        obtain ⟨d, hd, hnr⟩ := (render_master fuel2).1 n false _ s s1 .NotRendered hn
        rw [hd, hnr rfl, String.append_empty]

/-- C4 witness: the theorem applied to `<ol><li>a</li><li></li><li>b</li></ol>`,
where the two rendered items receive ordinals 1 and 2 and the empty item
consumes none. -/
theorem ol_ordinal_assignment_witness :
    ∃ l, ol_trace 20 exOlChildren initial_context 1 .NotRendered "" =
        .ok ("\n  1. a\n  2. b", .Rendered, l) ∧
      l = List.range' 1 l.length ∧
      (∀ fuel2 n k s s1,
        render_node fuel2 n false (initial_context.merge (.OrderedList k)) s =
          .ok (s1, .NotRendered) → s1 = s) :=
  ol_ordinal_assignment 20 [] exOlChildren false initial_context ""
    "\n  1. a\n  2. b" .Rendered (by decide)

/-- C7: whenever a `RequiresSpace` separator is realized before content,
exactly one space is appended unless the upcoming first character is `.`,
`,` or `;`, in which case nothing is appended; in particular
`<p>Hello <a href="http://x">there</a>.</p>` renders with no space before
the period, its single nonempty line being `Hello [there](http://x).`. -/
theorem requires_space_spec :
    (∀ ctx c res, ctx.context_type = .RequiresSpace →
      render_context ctx c res =
        if c = '.' ∨ c = ',' ∨ c = ';' then res else res ++ " ") ∧
    render_node 20 exP false initial_context "" =
      .ok ("\n\nHello [there](http://x).", .Rendered) ∧
    strLines "\n\nHello [there](http://x)." =
      ["", "", "Hello [there](http://x)."] := by
  refine ⟨?_, by decide, by decide⟩
  intro ctx c res h
  simp only [render_context, h]
  by_cases hc : c = '.' ∨ c = ',' ∨ c = ';'
  · rw [if_neg (by tauto), if_pos hc]
  · push_neg at hc
    rw [if_pos hc, if_neg (by tauto)]

/-- C7 witness: the separator rule applied before a period (no space) and
before a letter (one space). -/
theorem requires_space_spec_witness :
    render_context ⟨.RequiresSpace, 0, false⟩ '.' "w" = "w" ∧
    render_context ⟨.RequiresSpace, 0, false⟩ 'H' "w" = "w " := by
  constructor
  · rw [requires_space_spec.1 _ '.' "w" rfl]
    decide
  · rw [requires_space_spec.1 _ 'H' "w" rfl]
    decide

/-- C5 counterexample: rendering `<pre><code>line1\n\tline2</code></pre>`
does not split the text on the newline into two output lines and does not
expand the tab to four spaces: the newline is replaced by a space and the
tab is kept, producing the single content line `line1 \tline2`. -/
theorem pre_code_raw_counterexample :
    render_node 20 exPre false initial_context "" =
      .ok ("\n\n```\nline1 \tline2\n```", .Rendered) ∧
    rawTf "line1\n\tline2" = "line1 \tline2" ∧
    ("line1 \tline2" : String) ≠ "line1\n    line2" ∧
    strLines "line1 \tline2" ≠ ["line1", "    line2"] := by
  exact ⟨by decide, by decide, by decide, by decide⟩

/-- C5 amended: a text node inside a `pre` > `code` block is rendered
without trimming, but its newlines are replaced by single spaces and its
tabs are kept verbatim: the text is emitted as the single content line
`rawTf t` between the code fences, and rendering returns `Rendered` (for
nonempty text). -/
theorem pre_code_raw_spec (fuel : Nat) (t : String) (res : String) (h : t ≠ "") :
    render_node (fuel + 6) (.Element "pre" [] [.Element "code" [] [.Text t]])
      false initial_context res =
      .ok (res ++ "\n\n```\n" ++ rawTf t ++ "\n```", .Rendered) := by
  rw [show fuel + 6 = fuel + 1 + 1 + 1 + 1 + 1 + 1 from rfl]
  simp [render_node, render_block_children, render_code, render_code_children,
    render_context, new_line, initial_context, Context.merge, ContextType.precedence,
    rawTf, h]
  constructor
  · rw [show ("\n\n```\n" : String) = "\n" ++ "\n" ++ "```" ++ "\n" from rfl,
        show ("\n```" : String) = "\n" ++ "```" from rfl]
    simp only [String.append_assoc]
  · decide

/-- C5 witness: the amended theorem applied to the spec's scenario text
`line1\n\tline2`. -/
theorem pre_code_raw_spec_witness :
    render_node 6 (.Element "pre" [] [.Element "code" [] [.Text "line1\n\tline2"]])
      false initial_context "" =
      .ok ("" ++ "\n\n```\n" ++ rawTf "line1\n\tline2" ++ "\n```", .Rendered) :=
  pre_code_raw_spec 0 "line1\n\tline2" "" (by decide)

/-- Helper: width of a nonempty word list extended by one word. -/
theorem joinedWidth_append_single : ∀ (w : String) (cur : List String),
    cur ≠ [] → joinedWidth (cur ++ [w]) = joinedWidth cur + (1 + w.length)
  | w, [], h => absurd rfl h
  | w, [x], _ => by simp [joinedWidth]; omega
  | w, x :: y :: ys, _ => by
      have ih := joinedWidth_append_single w (y :: ys) (by simp)
      have e1 : joinedWidth ((x :: y :: ys) ++ [w]) =
          x.length + 1 + joinedWidth ((y :: ys) ++ [w]) := rfl
      have e2 : joinedWidth (x :: y :: ys) = x.length + 1 + joinedWidth (y :: ys) := rfl
      rw [e1, e2, ih]
      omega

/-- Helper: the emitter never loses, splits or reorders words placed on
created lines. -/
theorem created_flatten (maxW indentCols : Nat) :
    ∀ ws cur curWidth,
      (segmentCreated maxW indentCols cur curWidth ws).flatten = cur ++ ws := by
  intro ws
  induction ws with
  | nil => intro cur cw; simp [segmentCreated]
  | cons w ws ih =>
      intro cur cw
      simp only [segmentCreated]
      split
      · simp [ih]
      · rw [ih]
        simp

/-- Helper: every created line is within `maxW` or holds a single word. -/
theorem created_inv (maxW indentCols : Nat) :
    ∀ ws cur curWidth, cur ≠ [] → curWidth = indentCols + joinedWidth cur →
      (curWidth ≤ maxW ∨ ∃ w, cur = [w]) →
      ∀ l ∈ segmentCreated maxW indentCols cur curWidth ws,
        indentCols + joinedWidth l ≤ maxW ∨ ∃ w, l = [w] := by
  intro ws
  induction ws with
  | nil =>
      intro cur cw hne hw hinv l hl
      simp only [segmentCreated, List.mem_singleton] at hl
      subst hl
      rcases hinv with hle | hs
      · exact Or.inl (hw ▸ hle)
      · exact Or.inr hs
  | cons w ws ih =>
      intro cur cw hne hw hinv l hl
      simp only [segmentCreated] at hl
      split at hl
      · rcases List.mem_cons.mp hl with rfl | hl2
        · rcases hinv with hle | hs
          · exact Or.inl (hw ▸ hle)
          · exact Or.inr hs
        · exact ih [w] (indentCols + w.length) (by simp) (by simp [joinedWidth])
            (Or.inr ⟨w, rfl⟩) l hl2
      · rename_i hcond
        push_neg at hcond
        exact ih (cur ++ [w]) (cw + 1 + w.length)
          (by simp)
          (by rw [joinedWidth_append_single w cur hne]; omega)
          (Or.inl (by omega)) l hl

/-- Helper: the words appended to the entry line followed by the words of
the created lines are exactly the input words, in order. -/
theorem init_parts (maxW indentCols : Nat) :
    ∀ ws w0 gap,
      (segmentInit maxW indentCols w0 gap ws).1 ++
        (segmentInit maxW indentCols w0 gap ws).2.flatten = ws := by
  intro ws
  induction ws with
  | nil => intro w0 gap; simp [segmentInit]
  | cons w ws ih =>
      intro w0 gap
      simp only [segmentInit]
      split
      · simp [created_flatten]
      · simp only [List.cons_append, List.cons.injEq, true_and]
        exact ih _ true

/-- Helper: every created line is within `maxW` or holds a single word. -/
theorem init_inv (maxW indentCols : Nat) :
    ∀ ws w0 gap l, l ∈ (segmentInit maxW indentCols w0 gap ws).2 →
      indentCols + joinedWidth l ≤ maxW ∨ ∃ w, l = [w] := by
  intro ws
  induction ws with
  | nil => intro w0 gap l hl; simp [segmentInit] at hl
  | cons w ws ih =>
      intro w0 gap l hl
      simp only [segmentInit] at hl
      split at hl
      · exact created_inv maxW indentCols ws [w] (indentCols + w.length)
          (by simp) (by simp [joinedWidth]) (Or.inr ⟨w, rfl⟩) l hl
      · exact ih _ true l hl

/-- Helper: the entry line, if within `maxW` on entry, stays within
`maxW`. -/
theorem init_width (maxW indentCols : Nat) :
    ∀ ws w0 gap, w0 ≤ maxW →
      placedWidth w0 gap (segmentInit maxW indentCols w0 gap ws).1 ≤ maxW := by
  intro ws
  induction ws with
  | nil => intro w0 gap h; simpa [segmentInit, placedWidth] using h
  | cons w ws ih =>
      intro w0 gap h
      simp only [segmentInit]
      split
      · simpa [placedWidth] using h
      · rename_i hcond
        push_neg at hcond
        simp only [placedWidth]
        exact ih (w0 + (if gap then 1 else 0) + w.length) true
          (by cases gap <;> simp <;> omega)

/-- C2 (amended; the wrapping renderer is absent from `src/`, so the word
placement of spec 4.2/4.4 is modelled from the spec): every line the
emitter creates either fits within `max_width` or consists of its
indentation and a single word (so any over-long line holds exactly one
word); words are never split, lost or reordered; and the entry line, if
within `max_width` when the emitter starts, never grows past
`max_width`. -/
theorem wrap_width_invariant (maxW indentCols w0 : Nat) (gap : Bool)
    (ws : List String) :
    (∀ l ∈ (segmentInit maxW indentCols w0 gap ws).2,
      maxW < WrapLine.width ⟨indentCols, l⟩ → ∃ w, l = [w]) ∧
    (segmentInit maxW indentCols w0 gap ws).1 ++
      (segmentInit maxW indentCols w0 gap ws).2.flatten = ws ∧
    (w0 ≤ maxW →
      placedWidth w0 gap (segmentInit maxW indentCols w0 gap ws).1 ≤ maxW) := by
  refine ⟨?_, init_parts maxW indentCols ws w0 gap,
    init_width maxW indentCols ws w0 gap⟩
  intro l hl hover
  rcases init_inv maxW indentCols ws w0 gap l hl with hle | hs
  · exfalso
    simp only [WrapLine.width] at hover
    omega
  · exact hs

/-- C2 counterexample (against the spec-modelled emitter): in a list
context (one list level with the `InsideList` continuation indent of spec
4.4 gives 4 indentation columns) with `max_width = 8`, the word `abcdefg`
of width 7 ≤ 8 wraps onto a fresh indented line of total width 11 > 8:
an output line exceeds `max_width` although no single word's own width
does, refuting the claim's "except a line consisting of a single word
whose own width exceeds max_width". -/
theorem wrap_width_counterexample :
    segmentInit 8 4 4 false ["abcdefg"] = ([], [["abcdefg"]]) ∧
    WrapLine.width ⟨4, ["abcdefg"]⟩ = 11 ∧ 8 < 11 ∧ "abcdefg".length ≤ 8 := by
  exact ⟨by decide, by decide, by decide, by decide⟩

/-- C2 witness: the amended invariant instantiated at the counterexample
input, with all parts evaluated. -/
theorem wrap_width_invariant_witness :
    (∀ l ∈ (segmentInit 8 4 4 false ["abcdefg"]).2,
      8 < WrapLine.width ⟨4, l⟩ → ∃ w, l = [w]) ∧
    (segmentInit 8 4 4 false ["abcdefg"]).1 ++
      (segmentInit 8 4 4 false ["abcdefg"]).2.flatten = ["abcdefg"] ∧
    (4 ≤ 8 → placedWidth 4 false (segmentInit 8 4 4 false ["abcdefg"]).1 ≤ 8) :=
  wrap_width_invariant 8 4 4 false ["abcdefg"]
